import Mathlib

/-!
Verification development for the nix-oci-hashes reconciliation scripts.

The Python sources embedded here:
  nix/scripts/manage-images.py            (namespace ManageImages)
  nix/scripts/generate-version-dockerfiles.py (namespace GenVersionDockerfiles)
  nix/scripts/harvest-tags.py             (namespace HarvestTags)
  nix/scripts/collect-digests.py          (shares the parser with ManageImages)

Strings are modelled as Lean `String` / `List Char`; the filesystem is a
finite explicit structure of files (path plus content) and directories,
with paths as lists of segments (mirroring pathlib components; sanitized
segments never contain a separator, so the segment-list view is faithful).
-/

set_option maxRecDepth 20000

/-- Python regex `\s` (the whitespace characters relevant to `str` patterns,
ASCII/Latin-1 range: space, tab, newline, carriage return, vertical tab,
form feed, file/group/record/unit separators, next line, no-break space). -/
def pySpace (c : Char) : Bool :=
  c.toNat = 32 || c.toNat = 9 || c.toNat = 10 || c.toNat = 13 ||
  c.toNat = 11 || c.toNat = 12 || c.toNat = 28 || c.toNat = 29 ||
  c.toNat = 30 || c.toNat = 31 || c.toNat = 133 || c.toNat = 160 ||
  c.toNat = 8232 || c.toNat = 8233

/-- Line boundary characters of Python `str.splitlines`. -/
def lineBreakChar (c : Char) : Bool :=
  c.toNat = 10 || c.toNat = 13 || c.toNat = 11 || c.toNat = 12 ||
  c.toNat = 28 || c.toNat = 29 || c.toNat = 30 || c.toNat = 133 ||
  c.toNat = 8232 || c.toNat = 8233

/-- Auxiliary worker of `splitLines`; `cur` is the line accumulated so far. -/
def splitLinesAux : List Char → List Char → List (List Char)
  | cur, [] => if cur = [] then [] else [cur]
  | cur, [c] => if lineBreakChar c then [cur] else [cur ++ [c]]
  | cur, c :: d :: rest =>
    if c = '\r' then
      if d = '\n' then cur :: splitLinesAux [] rest
      else cur :: splitLinesAux [] (d :: rest)
    else if lineBreakChar c then cur :: splitLinesAux [] (d :: rest)
    else splitLinesAux (cur ++ [c]) (d :: rest)

/-- Python `str.splitlines`: split at line boundaries, treating CRLF as one
boundary, with no trailing empty line for a trailing boundary. -/
def splitLines (s : List Char) : List (List Char) := splitLinesAux [] s

/-- Case-insensitive match of one pattern character `p` against a subject
character `c`, as performed by `re.IGNORECASE` on ASCII letters. -/
def ciMatch (p c : Char) : Bool := c = p || c = p.toUpper || c = p.toLower

/-- Match a literal pattern (case-insensitively) as a prefix of the subject,
returning the remaining subject on success. -/
def ciPrefix : List Char → List Char → Option (List Char)
  | [], s => some s
  | _ :: _, [] => none
  | p :: ps, c :: cs => if ciMatch p c then ciPrefix ps cs else none

/-- Hex digit as matched by `[a-f0-9]` under `re.IGNORECASE`. -/
def hexDigitCI (c : Char) : Bool :=
  ('0' ≤ c && c ≤ '9') || ('a' ≤ c && c ≤ 'f') || ('A' ≤ c && c ≤ 'F')

/-- Tail of the FROM pattern after an `AS` keyword: `AS\s+.*` at the point
where all leading whitespace of `\s*` has been consumed. -/
def matchASRest (s : List Char) : Bool :=
  match s with
  | a :: b :: c :: _ => ciMatch 'a' a && ciMatch 's' b && pySpace c
  | _ => false

/-- The regex tail `\s*(?:AS\s+.*)?$`: either the rest of the line is all
whitespace, or after maximal whitespace an `AS` clause follows.  (Giving
whitespace back to the optional group cannot help, since `AS` starts with a
non-whitespace character, so maximal munch is complete here.) -/
def matchEnd (s : List Char) : Bool :=
  s.all pySpace || matchASRest (s.dropWhile pySpace)

/-- Literal `@sha256:` of the digest group. -/
def digestLit : List Char := ['@', 's', 'h', 'a', '2', '5', '6', ':']

/-- The regex tail `(?:@sha256:([a-f0-9]{64}))?\s*(?:AS\s+.*)?$`.
Returns `some d` when the tail matches with digest capture `d`
(`some digits` when the digest group participated, `none` when it was
skipped), and `none` when the tail cannot match at all.  The engine prefers
taking the optional group and falls back to skipping it. -/
def matchDigestEnd (s : List Char) : Option (Option (List Char)) :=
  match ciPrefix digestLit s with
  | some rest =>
    if (rest.take 64).length = 64 && (rest.take 64).all hexDigitCI then
      if matchEnd (rest.drop 64) then some (some (rest.take 64))
      else if matchEnd s then some none else none
    else if matchEnd s then some none else none
  | none => if matchEnd s then some none else none

/-- Greedy backtracking over the tag capture `([^\s@]+)`: `r` is the maximal
run still claimed by the tag, `after` the subject following it.  Candidates
are tried longest first, and each candidate hands the rest of the subject to
the digest/end tail. -/
def tryTagRev : List Char → List Char → Option (List Char × Option (List Char))
  | [], _ => none
  | c :: revRest, after =>
    match matchDigestEnd after with
    | some d => some ((c :: revRest).reverse, d)
    | none => tryTagRev revRest (c :: after)

/-- Candidate list entry point: the run is reversed so that candidates are
peeled from its end, longest first. -/
def tryTagLens (r after : List Char) : Option (List Char × Option (List Char)) :=
  tryTagRev r.reverse after

/-- The regex tail `(?::([^\s@]+))?(?:@sha256:...)?\s*(?:AS\s+.*)?$` at the
position right after the image capture.  Prefers a present tag group (with
greedy backtracking over its length), then falls back to no tag. -/
def matchTagEnd : List Char → Option (Option (List Char) × Option (List Char))
  | c :: v =>
    if c = ':' then
      let r := v.takeWhile (fun x => !pySpace x && x ≠ '@')
      match tryTagLens r (v.drop r.length) with
      | some (tg, d) => some (some tg, d)
      | none =>
        match matchDigestEnd (c :: v) with
        | some d => some (none, d)
        | none => none
    else
      match matchDigestEnd (c :: v) with
      | some d => some (none, d)
      | none => none
  | [] =>
    match matchDigestEnd [] with
    | some d => some (none, d)
    | none => none

/-- Lazy image capture `([^\s]+?)` followed by the tag/digest/end tail:
the shortest nonempty run of non-whitespace characters after which the
tail matches.  `acc` holds the image characters consumed so far. -/
def matchImageRest : List Char → List Char → Option (List Char × Option (List Char) × Option (List Char))
  | acc, [] =>
    (match matchTagEnd [] with
     | some (t, d) => some (acc, t, d)
     | none => none)
  | acc, c :: s' =>
    match matchTagEnd (c :: s') with
    | some (t, d) => some (acc, t, d)
    | none => if pySpace c then none else matchImageRest (acc ++ [c]) s'

/-- Entry into the image capture: the image must start with at least one
non-whitespace character. -/
def matchRest (s : List Char) : Option (List Char × Option (List Char) × Option (List Char)) :=
  match s with
  | [] => none
  | c :: s' => if pySpace c then none else matchImageRest [c] s'

/-- Captured groups of the FROM pattern, before any defaulting. -/
structure RawParts where
  platform : Option (List Char)
  image : List Char
  tag : Option (List Char)
  digest : Option (List Char)
deriving DecidableEq

/-- Literal `--platform=` of the platform group. -/
def platLit : List Char :=
  ['-', '-', 'p', 'l', 'a', 't', 'f', 'o', 'r', 'm', '=']

/-- The pattern after `FROM\s+`: optional `(?:--platform=([^\s]+)\s+)?` then
image/tag/digest/end.  The platform capture `[^\s]+` is forced maximal (the
following `\s+` cannot absorb non-whitespace), and if the platform branch
fails anywhere the whole optional group is skipped, the image capture then
starting at `--platform=...` itself. -/
def matchAfterFrom (s : List Char) : Option RawParts :=
  let noPlat : Option RawParts :=
    match matchRest s with
    | some (i, t, d) => some ⟨none, i, t, d⟩
    | none => none
  match ciPrefix platLit s with
  | some rest =>
    let p := rest.takeWhile (fun c => !pySpace c)
    if p = [] then noPlat
    else
      let rest2 := rest.drop p.length
      let sp := rest2.takeWhile pySpace
      if sp = [] then noPlat
      else
        match matchRest (rest2.drop sp.length) with
        | some (i, t, d) => some ⟨some p, i, t, d⟩
        | none => noPlat
  | none => noPlat

/-- Literal `FROM` keyword. -/
def fromLit : List Char := ['f', 'r', 'o', 'm']

/-- One line against the full pattern
`^FROM\s+(?:--platform=([^\s]+)\s+)?([^\s]+?)(?::([^\s@]+))?(?:@sha256:([a-f0-9]{64}))?\s*(?:AS\s+.*)?$`
with `re.IGNORECASE`, as used (with the digest group capturing or not) by
all three parser copies in the repository. -/
def matchFromLine (line : List Char) : Option RawParts :=
  match ciPrefix fromLit line with
  | some rest =>
    let sp := rest.takeWhile pySpace
    if sp = [] then none else matchAfterFrom (rest.drop sp.length)
  | none => none

/-- Scan the content line by line and return the captures of the first
matching FROM line (shared core of every `parse_dockerfile` copy). -/
def parseRaw (content : String) : Option RawParts :=
  (splitLines content.data).findSome? matchFromLine

/-- Pack a character list back into a string. -/
def listToStr (l : List Char) : String := ⟨l⟩

/-- Parsed reference with defaults applied, as returned by
`parse_dockerfile` in manage-images.py and collect-digests.py. -/
structure ParsedRef where
  platform : String
  image : String
  tag : String
  digest : Option String
deriving DecidableEq

namespace ManageImages

/-- manage-images.py `parse_dockerfile` (also collect-digests.py): first
matching FROM line, with tag defaulted to `latest` and platform defaulted
to `linux/amd64` when the corresponding group did not participate. -/
def parse_dockerfile (content : String) : Option ParsedRef :=
  (parseRaw content).map fun r =>
    { platform := match r.platform with
        | some p => listToStr p
        | none => "linux/amd64"
      image := listToStr r.image
      tag := match r.tag with
        | some t => listToStr t
        | none => "latest"
      digest := r.digest.map listToStr }

end ManageImages

/-- Reference as returned by harvest-tags.py `parse_dockerfile`: the raw
captures, with no defaulting (the digest group there is non-capturing). -/
structure HtRef where
  platform : Option String
  image : String
  tag : Option String
deriving DecidableEq

namespace HarvestTags

/-- harvest-tags.py `parse_dockerfile`: same pattern, absence of tag and
platform preserved in the result. -/
def parse_dockerfile (content : String) : Option HtRef :=
  (parseRaw content).map fun r =>
    ⟨r.platform.map listToStr, listToStr r.image, r.tag.map listToStr⟩

end HarvestTags

/-- Python single-character `str.replace a b`. -/
def replaceChar (a b : Char) (s : String) : String :=
  ⟨s.data.map (fun c => if c = a then b else c)⟩

/-- manage-images.py / generate-version-dockerfiles.py
`sanitize_image_name`: `image.replace('/','_').replace(':','_').replace('.','_')`. -/
def sanitize_image_name (s : String) : String :=
  replaceChar '.' '_' (replaceChar ':' '_' (replaceChar '/' '_' s))

/-- manage-images.py / generate-version-dockerfiles.py `sanitize_tag`:
`tag.replace('.','_').replace('/','_')`. -/
def sanitize_tag (s : String) : String :=
  replaceChar '/' '_' (replaceChar '.' '_' s)

/-- The inline `platform.replace('/', '_')` used for platform segments. -/
def sanitizePlatform (s : String) : String := replaceChar '/' '_' s

/-- harvest-tags.py `sanitize_for_path` (falsy values give `None`). -/
def sanitize_for_path (v : Option String) : Option String :=
  match v with
  | none => none
  | some s =>
    if s = "" then none
    else some (replaceChar '.' '_' (replaceChar ':' '_' (replaceChar '/' '_' s)))

/-- `create_dockerfile_with_tag` (identical in manage-images.py and
generate-version-dockerfiles.py): `f"FROM --platform={platform} {image}:{tag}\n"`. -/
def create_dockerfile_with_tag (image platform tag : String) : String :=
  "FROM --platform=" ++ platform ++ " " ++ image ++ ":" ++ tag ++ "\n"

/-! ## Filesystem model

Paths are lists of segments (pathlib components).  A filesystem is an
explicit finite structure of files (path with content) and directories.
All operations below mirror the pathlib/os calls used by the scripts. -/

abbrev FsPath := List String

/-- Boolean path-prefix test on segment lists. -/
def pfx : FsPath → FsPath → Bool
  | [], _ => true
  | _ :: _, [] => false
  | a :: as, b :: bs => a == b && pfx as bs

/-- Strict prefix: `a` a prefix of `b` and not equal. -/
def spfx (a b : FsPath) : Bool := pfx a b && !(a == b)

structure FS where
  files : List (FsPath × String)
  dirs : List FsPath
deriving DecidableEq

/-- First-match association lookup on the file list. -/
def lookupFile : List (FsPath × String) → FsPath → Option String
  | [], _ => none
  | f :: l, p => if f.1 = p then some f.2 else lookupFile l p

/-- Content of the file at `p`, if present. -/
def FS.fileContent (fs : FS) (p : FsPath) : Option String :=
  lookupFile fs.files p

/-- File existence. -/
def FS.fileExistsB (fs : FS) (p : FsPath) : Bool := (fs.fileContent p).isSome

/-- `Path.exists()`: a file or a directory at `p`. -/
def FS.existsB (fs : FS) (p : FsPath) : Bool :=
  fs.fileExistsB p || fs.dirs.contains p

/-- `Path.write_text`: replace the content at `p`, or add the file. -/
def FS.writeFile (fs : FS) (p : FsPath) (c : String) : FS :=
  if fs.fileExistsB p then
    ⟨fs.files.map (fun f => if f.1 == p then (p, c) else f), fs.dirs⟩
  else ⟨fs.files ++ [(p, c)], fs.dirs⟩

/-- `Path.unlink`. -/
def FS.unlink (fs : FS) (p : FsPath) : FS :=
  ⟨fs.files.filter (fun f => !(f.1 == p)), fs.dirs⟩

/-- `Path.rmdir` once its emptiness has been established by the caller. -/
def FS.rmdir (fs : FS) (d : FsPath) : FS :=
  ⟨fs.files, fs.dirs.filter (fun e => !(e == d))⟩

/-- `shutil.rmtree`: remove `d` and everything below it. -/
def FS.rmtree (fs : FS) (d : FsPath) : FS :=
  ⟨fs.files.filter (fun f => !pfx d f.1), fs.dirs.filter (fun e => !pfx d e)⟩

/-- All nonempty prefixes of a path, shortest first, including the path. -/
def pathPrefixes : FsPath → List FsPath
  | [] => []
  | a :: rest => [a] :: (pathPrefixes rest).map (a :: ·)

/-- `Path.mkdir(parents=True, exist_ok=True)` on the directory `d`. -/
def FS.mkdirParents (fs : FS) (d : FsPath) : FS :=
  ⟨fs.files, fs.dirs ++ (pathPrefixes d).filter (fun x => !fs.dirs.contains x)⟩

/-- A directory is empty when nothing (file or directory) lies strictly
below it; `rmdir` succeeds and `any(p.iterdir())` is false exactly then. -/
def FS.dirEmptyB (fs : FS) (d : FsPath) : Bool :=
  fs.files.all (fun f => !spfx d f.1) && fs.dirs.all (fun e => !spfx d e)

/-- The subdirectories yielded by `p.iterdir()` (entries that are
directories; plain-file children are skipped by every caller). -/
def FS.childDirs (fs : FS) (d : FsPath) : List FsPath :=
  fs.dirs.filter (fun e => spfx d e && e.length == d.length + 1)

/-- `base.rglob("Dockerfile")` together with each file's content. -/
def FS.walkDockerfiles (fs : FS) (base : FsPath) : List (FsPath × String) :=
  fs.files.filter (fun f => pfx base f.1 && f.1.getLastD "" == "Dockerfile")

def versionsRoot : FsPath := ["nix", "_dockerfiles", "versions"]

def pinsRoot : FsPath := ["nix", "_dockerfiles", "pins"]

/-- Well-formed filesystem: path keys are duplicate-free, every ancestor of
a file or directory is itself a recorded directory, and the empty path is
not a directory.  States produced by the scripts satisfy this. -/
def Wf (fs : FS) : Prop :=
  (fs.files.map Prod.fst).Nodup ∧ fs.dirs.Nodup ∧
  (∀ f ∈ fs.files, ∀ d ∈ pathPrefixes f.1.dropLast, d ∈ fs.dirs) ∧
  (∀ e ∈ fs.dirs, ∀ d ∈ pathPrefixes e.dropLast, d ∈ fs.dirs) ∧
  ([] : FsPath) ∉ fs.dirs

instance (fs : FS) : Decidable (Wf fs) := by
  unfold Wf; infer_instance

/-! ## Catalog model

`images.json` is a list of objects; loading it is a plain JSON read the
spec places out of scope, so stages take the decoded catalog directly,
`none` standing for a missing (or unreadable) `images.json`. -/

structure ImageSpec where
  image : String
  platforms : List String
  initialMajor : List String
  initialMajorMinor : List String
  initialMajorMinorPatch : List String
deriving DecidableEq

/-- Concat-map helper used to flatten the nested generation loops. -/
def cmap (l : List α) (f : α → List β) : List β :=
  (l.map f).foldr (· ++ ·) []

/-- The `strategies` dict of the scripts, in insertion order. -/
def strategyPairs (it : ImageSpec) : List (String × List String) :=
  [("major", it.initialMajor), ("major-minor", it.initialMajorMinor),
   ("major-minor-patch", it.initialMajorMinorPatch)]

/-- `item.get(...)` union of all initial tags, in the order the scripts
concatenate them. -/
def allInitialTags (it : ImageSpec) : List String :=
  it.initialMajor ++ it.initialMajorMinor ++ it.initialMajorMinorPatch

/-- `nix/_dockerfiles/versions/{strategy}/{safe_image}/{safe_platform}/Dockerfile`. -/
def versionPath (strategy image platform : String) : FsPath :=
  ["nix", "_dockerfiles", "versions", strategy, sanitize_image_name image,
   sanitizePlatform platform, "Dockerfile"]

/-- `nix/_dockerfiles/pins/{safe_image}/{safe_platform}/{safe_tag}/Dockerfile`. -/
def pinPath (image platform tag : String) : FsPath :=
  ["nix", "_dockerfiles", "pins", sanitize_image_name image,
   sanitizePlatform platform, sanitize_tag tag, "Dockerfile"]

/-- The create-if-absent step shared by all generation loops: check
`path.exists()`, and only when absent create the parent directories and
write the directive, recording the created path. -/
def createIfMissing (acc : FS × List FsPath) (job : FsPath × String) : FS × List FsPath :=
  if acc.1.existsB job.1 then acc
  else ((acc.1.mkdirParents job.1.dropLast).writeFile job.1 job.2, acc.2 ++ [job.1])

/-- The (path, content) pairs the version-generation loop iterates over:
one per (strategy with nonempty tags) × platform, content naming the first
tag of the strategy. -/
def versionJobs (images : List ImageSpec) : List (FsPath × String) :=
  cmap images fun it =>
    cmap (strategyPairs it) fun st =>
      match st.2 with
      | [] => []
      | tag :: _ =>
        it.platforms.map fun pl =>
          (versionPath st.1 it.image pl, create_dockerfile_with_tag it.image pl tag)

structure StageOut where
  fs : FS
  rc : Nat
  created : List FsPath
deriving DecidableEq

namespace ManageImages

/-- manage-images.py `generate_versions` (Step 1): error when the catalog
is missing, otherwise create every absent expected version Dockerfile.
No file is ever removed or rewritten. -/
def generate_versions (catalog : Option (List ImageSpec)) (fs : FS) : StageOut :=
  match catalog with
  | none => ⟨fs, 1, []⟩
  | some images =>
    let r := (versionJobs images).foldl createIfMissing (fs, [])
    ⟨r.1, 0, r.2⟩

/-- First pass of `generate_pins`: harvest (image, platform, tag) from every
version Dockerfile (tags and platforms defaulted by the parser) and derive
the pin jobs. -/
def pinJobsFromVersions (fs : FS) : List (FsPath × String) :=
  if fs.dirs.contains versionsRoot then
    cmap (fs.walkDockerfiles versionsRoot) fun f =>
      match parse_dockerfile f.2 with
      | none => []
      | some r =>
        if r.tag = "" then []
        else [(pinPath r.image r.platform r.tag,
               create_dockerfile_with_tag r.image r.platform r.tag)]
  else []

/-- Second pass of `generate_pins`: pin jobs from the catalog's initial
tags across all three strategies. -/
def pinJobsFromCatalog (images : List ImageSpec) : List (FsPath × String) :=
  cmap images fun it =>
    cmap (allInitialTags it) fun tag =>
      it.platforms.map fun pl =>
        (pinPath it.image pl tag, create_dockerfile_with_tag it.image pl tag)

/-- manage-images.py `generate_pins` (Step 2): create absent pins from the
versions tree, then from the catalog when `images.json` exists.  Always
exits 0; nothing is removed or rewritten. -/
def generate_pins (catalog : Option (List ImageSpec)) (fs : FS) : StageOut :=
  let r1 := (pinJobsFromVersions fs).foldl createIfMissing (fs, [])
  let jobs2 := match catalog with
    | none => []
    | some images => pinJobsFromCatalog images
  let r2 := jobs2.foldl createIfMissing r1
  ⟨r2.1, 0, r2.2⟩

end ManageImages

/-! ## Digest index -/

abbrev K3 := String × String × String

/-- The nested dict `digests[image][tag][platform]`, flattened to an
association list keyed by the triple; `setEntry` has Python dict-assignment
semantics (replace in place or append). -/
abbrev Assoc3 := List (K3 × String)

def setEntry (idx : Assoc3) (k : K3) (v : String) : Assoc3 :=
  if idx.any (fun e => e.1 == k) then
    idx.map (fun e => if e.1 == k then (k, v) else e)
  else idx ++ [(k, v)]

def lookup3 : Assoc3 → K3 → Option String
  | [], _ => none
  | e :: l, k => if e.1 = k then some e.2 else lookup3 l k

/-- Insertion into a sorted list of strings. -/
def insertSorted (x : String) : List String → List String
  | [] => [x]
  | y :: ys => if x ≤ y then x :: y :: ys else y :: insertSorted x ys

def sortStrings (l : List String) : List String := l.foldr insertSorted []

def dedupStrings (l : List String) : List String :=
  l.foldr (fun x acc => if acc.contains x then acc else x :: acc) []

/-- Sorted distinct keys, as `json.dump(..., sort_keys=True)` orders them. -/
def sortedKeys (l : List String) : List String := sortStrings (dedupStrings l)

def jsonEscape (s : String) : String :=
  ⟨s.data.foldr (fun c acc => if c = '"' || c = '\\' then '\\' :: c :: acc else c :: acc) []⟩

def joinStr (sep : String) : List String → String
  | [] => ""
  | x :: xs => xs.foldl (fun a b => a ++ sep ++ b) x

/-- `json.dump(digests, f, indent=2, sort_keys=True)`: deterministic
serialization of the nested index with keys sorted at every level. -/
def serializeIndex (idx : Assoc3) : String :=
  let images := sortedKeys (idx.map (·.1.1))
  let renderTag := fun (i t : String) =>
    let plats := sortedKeys ((idx.filter (fun e => e.1.1 == i && e.1.2.1 == t)).map (·.1.2.2))
    "\"" ++ jsonEscape t ++ "\": \x7b" ++
      joinStr ", " (plats.map fun p =>
        "\"" ++ jsonEscape p ++ "\": \"" ++
          jsonEscape ((lookup3 idx (i, t, p)).getD "") ++ "\"") ++ "\x7d"
  let renderImage := fun (i : String) =>
    let tags := sortedKeys ((idx.filter (fun e => e.1.1 == i)).map (·.1.2.1))
    "\"" ++ jsonEscape i ++ "\": \x7b" ++ joinStr ", " (tags.map (renderTag i)) ++ "\x7d"
  "\x7b" ++ joinStr ", " (images.map renderImage) ++ "\x7d"

structure HarvestOut where
  fs : FS
  rc : Nat
  index : Assoc3
  skipped : Nat
deriving DecidableEq

namespace ManageImages

/-- One walked pin Dockerfile: a parsed reference with a digest is inserted
at `[image][tag][platform]`; one without a digest is only counted. -/
def harvestStep (acc : Assoc3 × Nat) (f : FsPath × String) : Assoc3 × Nat :=
  match parse_dockerfile f.2 with
  | none => acc
  | some r =>
    match r.digest with
    | some d =>
      (setEntry acc.1 (r.image, r.tag, r.platform)
        (r.image ++ ":" ++ r.tag ++ "@sha256:" ++ d), acc.2)
    | none => (acc.1, acc.2 + 1)

/-- manage-images.py `harvest_digests` (Step 3): error when the pins
directory is missing; otherwise rebuild the index from the pins walk alone
and overwrite `digests.json` with its sorted serialization. -/
def harvest_digests (fs : FS) : HarvestOut :=
  if fs.dirs.contains pinsRoot then
    let r := (fs.walkDockerfiles pinsRoot).foldl harvestStep ([], 0)
    ⟨fs.writeFile ["digests.json"] (serializeIndex r.1), 0, r.1, r.2⟩
  else ⟨fs, 1, [], 0⟩

end ManageImages

namespace GenVersionDockerfiles

/-- generate-version-dockerfiles.py `get_expected_version_paths`. -/
def get_expected_version_paths (images : List ImageSpec) : List FsPath :=
  cmap images fun it =>
    cmap (strategyPairs it) fun st =>
      if st.2 = [] then []
      else it.platforms.map fun pl => versionPath st.1 it.image pl

/-- generate-version-dockerfiles.py `get_expected_pin_paths`. -/
def get_expected_pin_paths (images : List ImageSpec) : List FsPath :=
  cmap images fun it =>
    cmap (allInitialTags it) fun tag =>
      it.platforms.map fun pl => pinPath it.image pl tag

/-- The upward-prune loop after one orphan removal:
`while parent != base_dir and parent.exists(): try rmdir / except break`.
A walk reaching the empty path stops (rmdir of the working directory always
raises, caught by the `except`). -/
def pruneUpRev (base : FsPath) : List String → FS → FS
  | [], fs => fs
  | c :: revRest, fs =>
    let par := (c :: revRest).reverse
    if par = base then fs
    else if par ∈ fs.dirs then
      if fs.dirEmptyB par then pruneUpRev base revRest (fs.rmdir par) else fs
    else fs

/-- Entry point of the prune loop: the parent path is reversed so that the
walk towards the root peels segments structurally from its end. -/
def pruneUp (base : FsPath) (par : FsPath) (fs : FS) : FS :=
  pruneUpRev base par.reverse fs

/-- Removal of one orphaned Dockerfile followed by the upward prune of its
parent chain. -/
def removeOne (base : FsPath) (fs : FS) (p : FsPath) : FS :=
  pruneUp base p.dropLast (fs.unlink p)

/-- generate-version-dockerfiles.py `remove_orphaned_dockerfiles`:
unlink every existing path not in the expected set, pruning now-empty
parent directories upward after each unlink.  (The script iterates a Python
set difference; the model iterates the existing list in order, which fixes
one of the possible orders.) -/
def remove_orphaned_dockerfiles (expected existing : List FsPath) (base : FsPath)
    (fs : FS) : FS × List FsPath :=
  let orphaned := existing.filter (fun p => !expected.contains p)
  (orphaned.foldl (removeOne base) fs, orphaned)

end GenVersionDockerfiles

namespace HarvestTags

/-- harvest-tags.py `sanitize_for_path` on a string already known truthy. -/
def htSan (s : String) : String :=
  replaceChar '.' '_' (replaceChar ':' '_' (replaceChar '/' '_' s))

/-- The pin directory derived from one parsed version Dockerfile in
harvest-tags.py (platform absent means the literal segment `default`). -/
def pinDirOf (r : HtRef) : FsPath :=
  pinsRoot ++ [htSan r.image,
    (match r.platform with
     | some p => if p = "" then "default" else htSan p
     | none => "default"),
    htSan (r.tag.getD "")]

/-- harvest-tags.py `get_valid_pins_from_versions`: the pin directories
derived from version Dockerfiles whose parse yields a tag; files with no
FROM line or with an absent tag contribute nothing. -/
def get_valid_pins_from_versions (fs : FS) : List FsPath :=
  if fs.dirs.contains versionsRoot then
    cmap (fs.walkDockerfiles versionsRoot) fun f =>
      match parse_dockerfile f.2 with
      | none => []
      | some r =>
        match r.tag with
        | none => []
        | some t => if t = "" then [] else [pinDirOf r]
  else []

/-- The per-version-file pin contribution of harvest-tags.py: `none` when
the file has no FROM line or the parsed tag is absent (the file is skipped),
otherwise the pin directory it induces. -/
def pin_contribution (content : String) : Option FsPath :=
  match parse_dockerfile content with
  | none => none
  | some r =>
    match r.tag with
    | none => none
    | some t => if t = "" then none else some (pinDirOf r)

/-- One tag directory of `remove_orphaned_pins`: `shutil.rmtree` it when it
is not among the valid pins, recording the removal. -/
def processTagDir (valid : List FsPath) (acc : FS × List FsPath) (t : FsPath) :
    FS × List FsPath :=
  if valid.contains t then acc else (acc.1.rmtree t, acc.2 ++ [t])

/-- One platform directory: process its tag subdirectories, then remove the
platform directory if it is now empty. -/
def processPlatformDir (valid : List FsPath) (acc : FS × List FsPath) (pd : FsPath) :
    FS × List FsPath :=
  let r := (acc.1.childDirs pd).foldl (processTagDir valid) acc
  if r.1.dirs.contains pd && r.1.dirEmptyB pd then (r.1.rmdir pd, r.2) else r

/-- One image directory: process its platform subdirectories, then remove
the image directory if it is now empty. -/
def processImageDir (valid : List FsPath) (acc : FS × List FsPath) (idir : FsPath) :
    FS × List FsPath :=
  let r := (acc.1.childDirs idir).foldl (processPlatformDir valid) acc
  if r.1.dirs.contains idir && r.1.dirEmptyB idir then (r.1.rmdir idir, r.2) else r

/-- harvest-tags.py `remove_orphaned_pins`: walk image/platform/tag
directories under the pins root, rmtree every tag directory not in
`valid_pins`, and prune platform and image directories left empty. -/
def remove_orphaned_pins (valid : List FsPath) (fs : FS) : FS × List FsPath :=
  if fs.dirs.contains pinsRoot then
    (fs.childDirs pinsRoot).foldl (processImageDir valid) (fs, [])
  else (fs, [])

end HarvestTags

/-! ## Helper lemmas -/

lemma map_if_eq_self {a b : Char} : ∀ (l : List Char), (∀ c ∈ l, c ≠ a) →
    l.map (fun c => if c = a then b else c) = l := by
  intro l h
  induction l with
  | nil => rfl
  | cons x xs ih =>
    simp only [List.map_cons]
    rw [if_neg (h x (List.mem_cons_self _ _)),
      ih (fun c hc => h c (List.mem_cons_of_mem _ hc))]

lemma replaceChar_eq_self {a b : Char} : ∀ (s : String), (∀ c ∈ s.data, c ≠ a) →
    replaceChar a b s = s := by
  intro ⟨l⟩ h
  simp only [replaceChar]
  rw [map_if_eq_self l h]

lemma sanitize_image_name_eq_self {s : String}
    (h : ∀ c ∈ s.data, c ≠ '/' ∧ c ≠ ':' ∧ c ≠ '.') : sanitize_image_name s = s := by
  unfold sanitize_image_name
  rw [replaceChar_eq_self s (fun c hc => (h c hc).1),
    replaceChar_eq_self s (fun c hc => (h c hc).2.1),
    replaceChar_eq_self s (fun c hc => (h c hc).2.2)]

lemma sanitize_tag_eq_self {s : String}
    (h : ∀ c ∈ s.data, c ≠ '.' ∧ c ≠ '/') : sanitize_tag s = s := by
  unfold sanitize_tag
  rw [replaceChar_eq_self s (fun c hc => (h c hc).1),
    replaceChar_eq_self s (fun c hc => (h c hc).2)]

lemma sanitizePlatform_eq_self {s : String}
    (h : ∀ c ∈ s.data, c ≠ '/') : sanitizePlatform s = s := by
  unfold sanitizePlatform
  rw [replaceChar_eq_self s h]

/-! ## C1: the path codec -/

/-- Claim C1 counterexample: the distinct images `a.b` and `a_b` sanitize to
the same pin path (and the claim asserts distinct tuples never collide). -/
theorem c1_counterexample :
    pinPath "a.b" "linux/amd64" "1" = pinPath "a_b" "linux/amd64" "1" ∧
    ("a.b" : String) ≠ "a_b" := by
  constructor
  · decide
  · decide

/-- pathlib path construction drops empty components: `Path('a') / '' / 'b'`
and `Path("a//b")` both denote `a/b`.  The path the program actually
writes is therefore the nonempty segments of the raw segment list. -/
def pathlibParts (l : List String) : FsPath := l.filter (fun s => !(s == ""))

lemma pathlibParts_keep : ∀ (l : List String), (∀ s ∈ l, s ≠ "") →
    pathlibParts l = l := by
  intro l
  induction l with
  | nil => intro _; rfl
  | cons x xs ih =>
    intro h
    unfold pathlibParts
    rw [List.filter_cons]
    have hx : (!(x == "")) = true := by simp [h x (List.mem_cons_self x xs)]
    rw [if_pos hx]
    have h2 := ih (fun s hs => h s (List.mem_cons_of_mem x hs))
    unfold pathlibParts at h2
    rw [h2]

/-- Claim C1 (amended): the codec is deterministic and injective on tuples
whose components are nonempty and avoid the substituted characters (image
without `/`, `:`, `.`; platform without `/`; tag without `.`, `/`);
distinct such tuples yield distinct realized pin paths, and likewise for
version paths with a nonempty strategy segment.  Nonemptiness is forced:
pathlib drops empty components, so e.g. the tuples (a, '', x) and
(a, x, '') — both admitted by the character restrictions alone — realize
the same path `pins/a/x/Dockerfile`. -/
theorem c1_amended (i₁ p₁ t₁ i₂ p₂ t₂ : String)
    (hi₁ : ∀ c ∈ i₁.data, c ≠ '/' ∧ c ≠ ':' ∧ c ≠ '.')
    (hi₂ : ∀ c ∈ i₂.data, c ≠ '/' ∧ c ≠ ':' ∧ c ≠ '.')
    (hp₁ : ∀ c ∈ p₁.data, c ≠ '/') (hp₂ : ∀ c ∈ p₂.data, c ≠ '/')
    (ht₁ : ∀ c ∈ t₁.data, c ≠ '.' ∧ c ≠ '/')
    (ht₂ : ∀ c ∈ t₂.data, c ≠ '.' ∧ c ≠ '/')
    (hi₁n : i₁ ≠ "") (hi₂n : i₂ ≠ "") (hp₁n : p₁ ≠ "") (hp₂n : p₂ ≠ "")
    (ht₁n : t₁ ≠ "") (ht₂n : t₂ ≠ "") :
    (pathlibParts (pinPath i₁ p₁ t₁) = pathlibParts (pinPath i₂ p₂ t₂) →
      i₁ = i₂ ∧ p₁ = p₂ ∧ t₁ = t₂) ∧
    (∀ st₁ st₂ : String, st₁ ≠ "" → st₂ ≠ "" →
      pathlibParts (versionPath st₁ i₁ p₁) = pathlibParts (versionPath st₂ i₂ p₂) →
      st₁ = st₂ ∧ i₁ = i₂ ∧ p₁ = p₂) := by
  have ei₁ := sanitize_image_name_eq_self hi₁
  have ei₂ := sanitize_image_name_eq_self hi₂
  have ep₁ := sanitizePlatform_eq_self hp₁
  have ep₂ := sanitizePlatform_eq_self hp₂
  have et₁ := sanitize_tag_eq_self ht₁
  have et₂ := sanitize_tag_eq_self ht₂
  constructor
  · intro h
    simp only [pinPath, ei₁, ei₂, ep₁, ep₂, et₁, et₂] at h
    rw [pathlibParts_keep _ ?k1, pathlibParts_keep _ ?k2] at h
    case k1 =>
      intro s hs
      simp only [List.mem_cons, List.not_mem_nil, or_false] at hs
      rcases hs with rfl | rfl | rfl | rfl | rfl | rfl | rfl
      · decide
      · decide
      · decide
      · exact hi₁n
      · exact hp₁n
      · exact ht₁n
      · decide
    case k2 =>
      intro s hs
      simp only [List.mem_cons, List.not_mem_nil, or_false] at hs
      rcases hs with rfl | rfl | rfl | rfl | rfl | rfl | rfl
      · decide
      · decide
      · decide
      · exact hi₂n
      · exact hp₂n
      · exact ht₂n
      · decide
    injection h with _ h; injection h with _ h; injection h with _ h
    injection h with h3 h; injection h with h4 h; injection h with h5 _
    exact ⟨h3, h4, h5⟩
  · intro st₁ st₂ hst₁ hst₂ h
    simp only [versionPath, ei₁, ei₂, ep₁, ep₂] at h
    rw [pathlibParts_keep _ ?k3, pathlibParts_keep _ ?k4] at h
    case k3 =>
      intro s hs
      simp only [List.mem_cons, List.not_mem_nil, or_false] at hs
      rcases hs with rfl | rfl | rfl | rfl | rfl | rfl | rfl
      · decide
      · decide
      · decide
      · exact hst₁
      · exact hi₁n
      · exact hp₁n
      · decide
    case k4 =>
      intro s hs
      simp only [List.mem_cons, List.not_mem_nil, or_false] at hs
      rcases hs with rfl | rfl | rfl | rfl | rfl | rfl | rfl
      · decide
      · decide
      · decide
      · exact hst₂
      · exact hi₂n
      · exact hp₂n
      · decide
    injection h with _ h; injection h with _ h; injection h with _ h
    injection h with h3 h; injection h with h4 h; injection h with h5 _
    exact ⟨h3, h4, h5⟩

/-- Witness for `c1_amended` at concrete restricted inputs. -/
theorem c1_amended_witness :
    (∀ c ∈ ("busybox" : String).data, c ≠ '/' ∧ c ≠ ':' ∧ c ≠ '.') ∧
    (pathlibParts (pinPath "busybox" "linux_amd64" "1-alpine") =
        pathlibParts (pinPath "redis" "linux_amd64" "1-alpine") →
      ("busybox" : String) = "redis" ∧ ("linux_amd64" : String) = "linux_amd64" ∧
      ("1-alpine" : String) = "1-alpine") :=
  ⟨by decide,
   (c1_amended "busybox" "linux_amd64" "1-alpine" "redis" "linux_amd64" "1-alpine"
     (by decide) (by decide) (by decide) (by decide) (by decide) (by decide)
     (by decide) (by decide) (by decide) (by decide) (by decide) (by decide)).1⟩

/-! ## C8: exit codes -/

/-- Claim C8 (amended): `generate-versions` exits non-zero exactly when the
catalog is missing; `generate-pins` always exits zero (the catalog is
optional there); `harvest-digests` never reads the catalog but exits
non-zero when the pins directory is missing. -/
theorem c8_amended (catalog : Option (List ImageSpec)) (fs : FS) :
    ((ManageImages.generate_versions catalog fs).rc = if catalog.isNone then 1 else 0) ∧
    ((ManageImages.generate_pins catalog fs).rc = 0) ∧
    ((ManageImages.harvest_digests fs).rc = if fs.dirs.contains pinsRoot then 0 else 1) := by
  refine ⟨?_, rfl, ?_⟩
  · cases catalog <;> simp [ManageImages.generate_versions]
  · unfold ManageImages.harvest_digests
    split <;> rfl

/-- A state with a readable catalog file but no pins directory. -/
def fsNoPins : FS := ⟨[(["images.json"], "[]")], []⟩

/-- Claim C8 counterexample: with the catalog file present (and in a stage
that never requires the catalog at all), `harvest-digests` exits 1 merely
because the pins directory does not exist — the claim demands exit code
zero in that situation. -/
theorem c8_counterexample :
    (ManageImages.harvest_digests fsNoPins).rc = 1 ∧
    (ManageImages.harvest_digests fsNoPins).rc ≠ 0 ∧
    fsNoPins.fileExistsB ["images.json"] = true := by
  refine ⟨by decide, by decide, by decide⟩

/-! ## C4: existing files are never rewritten -/

lemma fileContent_mkdirParents (fs : FS) (d q : FsPath) :
    (fs.mkdirParents d).fileContent q = fs.fileContent q := rfl

lemma contains_iff {α : Type} [BEq α] [LawfulBEq α] (l : List α) (a : α) :
    l.contains a = true ↔ a ∈ l := by simp

lemma lookupFile_map_replace (p q : FsPath) (c : String) (h : q ≠ p) :
    ∀ (l : List (FsPath × String)),
      lookupFile (l.map (fun f => if f.1 == p then (p, c) else f)) q = lookupFile l q := by
  intro l
  induction l with
  | nil => rfl
  | cons f l ih =>
    simp only [List.map_cons]
    by_cases hfp : f.1 = p
    · have hh : (if f.1 == p then (p, c) else f) = (p, c) := by simp [hfp]
      rw [hh]
      simp only [lookupFile]
      rw [if_neg (show ¬(p, c).1 = q from fun hc => h hc.symm),
        if_neg (show ¬f.1 = q by rw [hfp]; exact fun hc => h hc.symm)]
      exact ih
    · have hh : (if f.1 == p then (p, c) else f) = f := by simp [hfp]
      rw [hh]
      simp only [lookupFile]
      by_cases hfq : f.1 = q
      · rw [if_pos hfq, if_pos hfq]
      · rw [if_neg hfq, if_neg hfq]
        exact ih

lemma lookupFile_append_none (l₁ l₂ : List (FsPath × String)) (p : FsPath)
    (h : lookupFile l₁ p = none) : lookupFile (l₁ ++ l₂) p = lookupFile l₂ p := by
  induction l₁ with
  | nil => rfl
  | cons f l ih =>
    simp only [lookupFile] at h
    simp only [List.cons_append, lookupFile]
    split at h
    · exact absurd h (by simp)
    · rename_i hne
      rw [if_neg hne]
      exact ih h

lemma lookupFile_append_some (l₁ l₂ : List (FsPath × String)) (p : FsPath) (v : String)
    (h : lookupFile l₁ p = some v) : lookupFile (l₁ ++ l₂) p = some v := by
  induction l₁ with
  | nil => simp [lookupFile] at h
  | cons f l ih =>
    simp only [lookupFile] at h
    simp only [List.cons_append, lookupFile]
    split at h
    · rename_i he
      rw [if_pos he]
      exact h
    · rename_i hne
      rw [if_neg hne]
      exact ih h

lemma fileContent_writeFile_ne (fs : FS) (p q : FsPath) (c : String) (h : q ≠ p) :
    (fs.writeFile p c).fileContent q = fs.fileContent q := by
  unfold FS.writeFile
  split
  · simp only [FS.fileContent]
    exact lookupFile_map_replace p q c h fs.files
  · rename_i hex
    simp only [FS.fileContent]
    cases hq : lookupFile fs.files q with
    | none =>
      rw [lookupFile_append_none _ _ _ hq]
      simp only [lookupFile]
      rw [if_neg (show ¬(p, c).1 = q from fun hc => h hc.symm)]
    | some v => exact lookupFile_append_some _ _ _ _ hq

lemma lookupFile_map_replace_self (p : FsPath) (c : String) :
    ∀ (l : List (FsPath × String)), (lookupFile l p).isSome = true →
      lookupFile (l.map (fun f => if f.1 == p then (p, c) else f)) p = some c := by
  intro l h
  induction l with
  | nil => simp [lookupFile] at h
  | cons f l ih =>
    simp only [List.map_cons]
    by_cases hfp : f.1 = p
    · have hh : (if f.1 == p then (p, c) else f) = (p, c) := by simp [hfp]
      rw [hh]
      simp [lookupFile]
    · have hh : (if f.1 == p then (p, c) else f) = f := by simp [hfp]
      rw [hh]
      simp only [lookupFile]
      rw [if_neg hfp]
      simp only [lookupFile, if_neg hfp] at h
      exact ih h

lemma fileContent_writeFile_self (fs : FS) (p : FsPath) (c : String) :
    (fs.writeFile p c).fileContent p = some c := by
  unfold FS.writeFile
  split
  · rename_i hex
    unfold FS.fileExistsB FS.fileContent at hex
    simp only [FS.fileContent]
    exact lookupFile_map_replace_self p c fs.files hex
  · rename_i hex
    simp only [FS.fileContent]
    have hnone : lookupFile fs.files p = none := by
      unfold FS.fileExistsB FS.fileContent at hex
      cases hf : lookupFile fs.files p with
      | none => rfl
      | some v => rw [hf] at hex; simp at hex
    rw [lookupFile_append_none _ _ _ hnone]
    simp [lookupFile]

lemma createIfMissing_preserves (acc : FS × List FsPath) (job : FsPath × String)
    (q : FsPath) (c : String) (h : acc.1.fileContent q = some c) :
    (createIfMissing acc job).1.fileContent q = some c := by
  unfold createIfMissing
  split
  · exact h
  · rename_i hex
    by_cases hq : q = job.1
    · exfalso
      apply hex
      unfold FS.existsB FS.fileExistsB
      rw [← hq, h]
      simp
    · simp only
      rw [fileContent_writeFile_ne _ _ _ _ hq, fileContent_mkdirParents]
      exact h

lemma foldl_createIfMissing_preserves :
    ∀ (jobs : List (FsPath × String)) (acc : FS × List FsPath) (q : FsPath) (c : String),
      acc.1.fileContent q = some c →
      (jobs.foldl createIfMissing acc).1.fileContent q = some c := by
  intro jobs
  induction jobs with
  | nil => intro acc q c h; exact h
  | cons j js ih =>
    intro acc q c h
    exact ih _ _ _ (createIfMissing_preserves acc j q c h)

/-- Claim C4: any file already present — whatever its content, including a
tag advanced or a digest appended externally — is left byte-identical by
both `generate-versions` and `generate-pins`; neither stage ever rewrites
an existing file. -/
theorem c4_no_rewrite (catalog : Option (List ImageSpec)) (fs : FS)
    (p : FsPath) (c : String) (h : fs.fileContent p = some c) :
    (ManageImages.generate_versions catalog fs).fs.fileContent p = some c ∧
    (ManageImages.generate_pins catalog fs).fs.fileContent p = some c := by
  constructor
  · cases catalog with
    | none => exact h
    | some images =>
      simp only [ManageImages.generate_versions]
      exact foldl_createIfMissing_preserves _ _ _ _ h
  · simp only [ManageImages.generate_pins]
    exact foldl_createIfMissing_preserves _ _ _ _
      (foldl_createIfMissing_preserves _ _ _ _ h)

/-- A pin file carrying an externally added digest, referenced by the
catalog below. -/
def pinContentW : String :=
  "FROM --platform=linux/amd64 busybox:1@sha256:aaaaaaaaaaaaaaaaaaaaaaaaaaaaaaaaaaaaaaaaaaaaaaaaaaaaaaaaaaaaaaaa\n"

def pinPathW : FsPath := pinPath "busybox" "linux/amd64" "1"

def catW : Option (List ImageSpec) := some [⟨"busybox", ["linux/amd64"], ["1"], [], []⟩]

def fsC4 : FS :=
  ⟨[(["images.json"], "[]"), (pinPathW, pinContentW)],
   [["nix"], ["nix", "_dockerfiles"], ["nix", "_dockerfiles", "pins"],
    ["nix", "_dockerfiles", "pins", "busybox"],
    ["nix", "_dockerfiles", "pins", "busybox", "linux_amd64"],
    ["nix", "_dockerfiles", "pins", "busybox", "linux_amd64", "1"]]⟩

/-- Witness for `c4_no_rewrite`: the digest-bearing pin file of `fsC4`,
whose path is expected under `catW`, keeps its exact content. -/
theorem c4_no_rewrite_witness :
    fsC4.fileContent pinPathW = some pinContentW ∧
    (ManageImages.generate_versions catW fsC4).fs.fileContent pinPathW = some pinContentW ∧
    (ManageImages.generate_pins catW fsC4).fs.fileContent pinPathW = some pinContentW :=
  have h : fsC4.fileContent pinPathW = some pinContentW := by decide
  ⟨h, (c4_no_rewrite catW fsC4 pinPathW pinContentW h).1,
    (c4_no_rewrite catW fsC4 pinPathW pinContentW h).2⟩

/-! ## C7: idempotence of the three stages -/

lemma cmap_nil {α β : Type} (f : α → List β) : cmap [] f = [] := rfl

lemma cmap_cons {α β : Type} (a : α) (l : List α) (f : α → List β) :
    cmap (a :: l) f = f a ++ cmap l f := rfl

lemma mem_cmap {α β : Type} {x : β} {l : List α} {f : α → List β} :
    x ∈ cmap l f ↔ ∃ a ∈ l, x ∈ f a := by
  induction l with
  | nil => simp [cmap_nil]
  | cons a l ih => simp [cmap_cons, ih]

lemma dirs_writeFile (fs : FS) (p : FsPath) (c : String) :
    (fs.writeFile p c).dirs = fs.dirs := by
  unfold FS.writeFile
  split <;> rfl

lemma files_mkdirParents (fs : FS) (d : FsPath) :
    (fs.mkdirParents d).files = fs.files := rfl

lemma contains_mkdirParents (fs : FS) (d q : FsPath) (h : fs.dirs.contains q = true) :
    (fs.mkdirParents d).dirs.contains q = true := by
  unfold FS.mkdirParents
  rw [contains_iff] at h ⊢
  exact List.mem_append_left _ h

lemma fileExistsB_writeFile_self (fs : FS) (p : FsPath) (c : String) :
    (fs.writeFile p c).fileExistsB p = true := by
  unfold FS.fileExistsB
  rw [fileContent_writeFile_self]
  rfl

lemma existsB_mono_createIfMissing (acc : FS × List FsPath) (job : FsPath × String)
    (q : FsPath) (h : acc.1.existsB q = true) : (createIfMissing acc job).1.existsB q = true := by
  unfold createIfMissing
  split
  · exact h
  · by_cases hq : q = job.1
    · subst hq
      unfold FS.existsB
      rw [fileExistsB_writeFile_self]
      rfl
    · unfold FS.existsB FS.fileExistsB at h ⊢
      rw [fileContent_writeFile_ne _ _ _ _ hq, dirs_writeFile]
      have hmk : (acc.1.mkdirParents job.1.dropLast).fileContent q = acc.1.fileContent q := rfl
      rw [hmk]
      simp only [Bool.or_eq_true] at h ⊢
      rcases h with h1 | h1
      · exact Or.inl h1
      · exact Or.inr (contains_mkdirParents _ _ _ h1)

lemma createIfMissing_creates (acc : FS × List FsPath) (job : FsPath × String) :
    (createIfMissing acc job).1.existsB job.1 = true := by
  unfold createIfMissing
  split
  · rename_i h
    exact h
  · unfold FS.existsB
    rw [fileExistsB_writeFile_self]
    rfl

lemma foldl_createIfMissing_exists_mono :
    ∀ (jobs : List (FsPath × String)) (acc : FS × List FsPath) (q : FsPath),
      acc.1.existsB q = true → ((jobs.foldl createIfMissing acc).1.existsB q = true) := by
  intro jobs
  induction jobs with
  | nil => intro acc q h; exact h
  | cons j js ih => intro acc q h; exact ih _ _ (existsB_mono_createIfMissing acc j q h)

lemma foldl_createIfMissing_all_exist :
    ∀ (jobs : List (FsPath × String)) (acc : FS × List FsPath),
      ∀ j ∈ jobs, ((jobs.foldl createIfMissing acc).1.existsB j.1 = true) := by
  intro jobs
  induction jobs with
  | nil => intro acc j hj; exact absurd hj (List.not_mem_nil j)
  | cons a js ih =>
    intro acc j hj
    rcases List.mem_cons.mp hj with rfl | hmem
    · exact foldl_createIfMissing_exists_mono js _ _ (createIfMissing_creates acc j)
    · exact ih _ j hmem

lemma foldl_createIfMissing_noop :
    ∀ (jobs : List (FsPath × String)) (acc : FS × List FsPath),
      (∀ j ∈ jobs, acc.1.existsB j.1 = true) → jobs.foldl createIfMissing acc = acc := by
  intro jobs
  induction jobs with
  | nil => intro acc _; rfl
  | cons a js ih =>
    intro acc h
    have hstep : createIfMissing acc a = acc := by
      unfold createIfMissing
      rw [if_pos (h a (List.mem_cons_self _ _))]
    simp only [List.foldl_cons, hstep]
    exact ih acc (fun j hj => h j (List.mem_cons_of_mem _ hj))

/-- generate-versions part of the idempotence argument. -/
lemma generate_versions_idem (catalog : Option (List ImageSpec)) (fs : FS) :
    ManageImages.generate_versions catalog ((ManageImages.generate_versions catalog fs).fs) =
      ⟨(ManageImages.generate_versions catalog fs).fs,
       (ManageImages.generate_versions catalog fs).rc, []⟩ := by
  cases catalog with
  | none => rfl
  | some images =>
    simp only [ManageImages.generate_versions]
    have hnoop := foldl_createIfMissing_noop (versionJobs images)
      (((versionJobs images).foldl createIfMissing (fs, [])).1, [])
      (fun j hj => foldl_createIfMissing_all_exist (versionJobs images) (fs, []) j hj)
    rw [hnoop]

/-- A path under the pins root. -/
def pinShaped (p : FsPath) : Prop :=
  ∃ r, p = "nix" :: "_dockerfiles" :: "pins" :: r

lemma pinPath_shaped (i pl t : String) : pinShaped (pinPath i pl t) :=
  ⟨[sanitize_image_name i, sanitizePlatform pl, sanitize_tag t, "Dockerfile"], rfl⟩

lemma pinJobsFromVersions_shaped (fs : FS) :
    ∀ j ∈ ManageImages.pinJobsFromVersions fs, pinShaped j.1 := by
  intro j hj
  unfold ManageImages.pinJobsFromVersions at hj
  split at hj
  · rw [mem_cmap] at hj
    obtain ⟨f, _, hjf⟩ := hj
    revert hjf
    split
    · intro h; exact absurd h (List.not_mem_nil _)
    · split
      · intro h; exact absurd h (List.not_mem_nil _)
      · intro h
        rcases List.mem_singleton.mp h with rfl
        exact pinPath_shaped _ _ _
  · exact absurd hj (List.not_mem_nil _)

lemma pinJobsFromCatalog_shaped (images : List ImageSpec) :
    ∀ j ∈ ManageImages.pinJobsFromCatalog images, pinShaped j.1 := by
  intro j hj
  unfold ManageImages.pinJobsFromCatalog at hj
  rw [mem_cmap] at hj
  obtain ⟨it, _, hj⟩ := hj
  rw [mem_cmap] at hj
  obtain ⟨tag, _, hj⟩ := hj
  rw [List.mem_map] at hj
  obtain ⟨pl, _, hjf⟩ := hj
  rw [← hjf]
  exact pinPath_shaped _ _ _

lemma mem_pathPrefixes_pfx : ∀ (l x : FsPath), x ∈ pathPrefixes l → pfx x l = true := by
  intro l
  induction l with
  | nil => intro x hx; simp [pathPrefixes] at hx
  | cons a rest ih =>
    intro x hx
    simp only [pathPrefixes, List.mem_cons] at hx
    rcases hx with rfl | hx
    · simp [pfx]
    · rcases List.mem_map.mp hx with ⟨y, hy, rfl⟩
      simp only [pfx, beq_self_eq_true, Bool.true_and]
      exact ih y hy

lemma pfx_dropLast_self : ∀ (l : FsPath), pfx l.dropLast l = true := by
  intro l
  induction l with
  | nil => rfl
  | cons a rest ih =>
    cases rest with
    | nil => rfl
    | cons b r2 =>
      simp only [List.dropLast, pfx, beq_self_eq_true, Bool.true_and]
      exact ih

lemma pfx_trans : ∀ (a b c : FsPath), pfx a b = true → pfx b c = true → pfx a c = true := by
  intro a
  induction a with
  | nil => intro b c _ _; rfl
  | cons x xs ih =>
    intro b c hab hbc
    cases b with
    | nil => simp [pfx] at hab
    | cons y ys =>
      cases c with
      | nil => simp [pfx] at hbc
      | cons z zs =>
        simp only [pfx, Bool.and_eq_true, beq_iff_eq] at hab hbc ⊢
        exact ⟨hab.1.trans hbc.1, ih ys zs hab.2 hbc.2⟩

lemma pfx_versionsRoot_pins (r : List String) :
    pfx versionsRoot ("nix" :: "_dockerfiles" :: "pins" :: r) = false := by
  simp [pfx, versionsRoot]

lemma walk_writeFile_out (fs : FS) (p : FsPath) (c : String) (base : FsPath)
    (h : pfx base p = false) :
    (fs.writeFile p c).walkDockerfiles base = fs.walkDockerfiles base := by
  unfold FS.writeFile FS.walkDockerfiles
  split
  · simp only
    induction fs.files with
    | nil => rfl
    | cons f l ih =>
      simp only [List.map_cons]
      by_cases hfp : f.1 = p
      · have hh : (if f.1 == p then (p, c) else f) = (p, c) := by simp [hfp]
        rw [hh]
        rw [List.filter_cons, List.filter_cons]
        simp only [h, Bool.false_and, hfp]
        exact ih
      · have hh : (if f.1 == p then (p, c) else f) = f := by simp [hfp]
        rw [hh]
        rw [List.filter_cons, List.filter_cons]
        cases hf : (pfx base f.1 && f.1.getLastD "" == "Dockerfile") with
        | true => rw [if_pos rfl, if_pos rfl, ih]
        | false =>
          rw [if_neg (by simp), if_neg (by simp)]
          exact ih
  · simp only
    rw [List.filter_append]
    simp [h]

lemma walk_mkdirParents (fs : FS) (d : FsPath) (base : FsPath) :
    (fs.mkdirParents d).walkDockerfiles base = fs.walkDockerfiles base := rfl

/-- The pair of observations `generate_pins` makes about the versions tree. -/
def versionsView (fs : FS) : Bool × List (FsPath × String) :=
  (fs.dirs.contains versionsRoot, fs.walkDockerfiles versionsRoot)

lemma contains_mkdirParents_out (fs : FS) (d q : FsPath) (h : q ∉ pathPrefixes d) :
    (fs.mkdirParents d).dirs.contains q = fs.dirs.contains q := by
  unfold FS.mkdirParents
  simp only
  cases hc : fs.dirs.contains q with
  | true =>
    rw [contains_iff] at hc ⊢
    exact List.mem_append_left _ hc
  | false =>
    rw [Bool.eq_false_iff]
    intro hmem
    rw [contains_iff] at hmem
    rcases List.mem_append.mp hmem with h1 | h1
    · rw [← contains_iff] at h1
      rw [hc] at h1
      exact Bool.false_ne_true h1
    · exact h (List.mem_of_mem_filter h1)

lemma versionsView_createIfMissing (acc : FS × List FsPath) (job : FsPath × String)
    (hjob : pinShaped job.1) :
    versionsView (createIfMissing acc job).1 = versionsView acc.1 := by
  obtain ⟨r, hr⟩ := hjob
  unfold createIfMissing
  split
  · rfl
  · unfold versionsView
    rw [dirs_writeFile]
    rw [walk_writeFile_out _ _ _ _ (by rw [hr]; exact pfx_versionsRoot_pins r)]
    rw [walk_mkdirParents]
    rw [contains_mkdirParents_out]
    intro hmem
    have h1 : pfx versionsRoot job.1.dropLast = true :=
      mem_pathPrefixes_pfx _ _ hmem
    have h2 : pfx versionsRoot job.1 = true :=
      pfx_trans _ _ _ h1 (pfx_dropLast_self job.1)
    rw [hr] at h2
    rw [pfx_versionsRoot_pins r] at h2
    exact Bool.false_ne_true h2

lemma versionsView_foldl :
    ∀ (jobs : List (FsPath × String)) (acc : FS × List FsPath),
      (∀ j ∈ jobs, pinShaped j.1) →
      versionsView ((jobs.foldl createIfMissing acc).1) = versionsView acc.1 := by
  intro jobs
  induction jobs with
  | nil => intro acc _; rfl
  | cons a js ih =>
    intro acc h
    simp only [List.foldl_cons]
    rw [ih _ (fun j hj => h j (List.mem_cons_of_mem _ hj))]
    exact versionsView_createIfMissing acc a (h a (List.mem_cons_self _ _))

lemma pinJobsFromVersions_congr (fs1 fs2 : FS)
    (h : versionsView fs1 = versionsView fs2) :
    ManageImages.pinJobsFromVersions fs1 = ManageImages.pinJobsFromVersions fs2 := by
  have h1 : fs1.dirs.contains versionsRoot = fs2.dirs.contains versionsRoot :=
    congrArg Prod.fst h
  have h2 : fs1.walkDockerfiles versionsRoot = fs2.walkDockerfiles versionsRoot :=
    congrArg Prod.snd h
  unfold ManageImages.pinJobsFromVersions
  rw [h1, h2]

lemma pins_pipeline_idem (jobs2 : List (FsPath × String))
    (h2 : ∀ j ∈ jobs2, pinShaped j.1) (fs : FS) :
    jobs2.foldl createIfMissing
      ((ManageImages.pinJobsFromVersions
          ((jobs2.foldl createIfMissing
            ((ManageImages.pinJobsFromVersions fs).foldl createIfMissing (fs, []))).1)).foldl
        createIfMissing
        ((jobs2.foldl createIfMissing
          ((ManageImages.pinJobsFromVersions fs).foldl createIfMissing (fs, []))).1, [])) =
    ((jobs2.foldl createIfMissing
      ((ManageImages.pinJobsFromVersions fs).foldl createIfMissing (fs, []))).1, []) := by
  have h1 : ∀ j ∈ ManageImages.pinJobsFromVersions fs, pinShaped j.1 :=
    pinJobsFromVersions_shaped fs
  set r1 := (ManageImages.pinJobsFromVersions fs).foldl createIfMissing (fs, []) with hr1
  set r := jobs2.foldl createIfMissing r1 with hr
  have hview : versionsView r.1 = versionsView fs := by
    rw [hr, versionsView_foldl jobs2 r1 h2, hr1,
      versionsView_foldl (ManageImages.pinJobsFromVersions fs) (fs, []) h1]
  rw [pinJobsFromVersions_congr _ _ hview]
  have hex1 : ∀ j ∈ ManageImages.pinJobsFromVersions fs, r.1.existsB j.1 = true := by
    intro j hj
    rw [hr]
    exact foldl_createIfMissing_exists_mono jobs2 _ _
      (by rw [hr1]; exact foldl_createIfMissing_all_exist _ (fs, []) j hj)
  rw [foldl_createIfMissing_noop (ManageImages.pinJobsFromVersions fs) (r.1, [])
    (fun j hj => hex1 j hj)]
  have hex2 : ∀ j ∈ jobs2, r.1.existsB j.1 = true := by
    intro j hj
    rw [hr]
    exact foldl_createIfMissing_all_exist jobs2 r1 j hj
  exact foldl_createIfMissing_noop jobs2 (r.1, []) (fun j hj => hex2 j hj)

/-- generate-pins part of the idempotence argument. -/
lemma generate_pins_idem (catalog : Option (List ImageSpec)) (fs : FS) :
    ManageImages.generate_pins catalog ((ManageImages.generate_pins catalog fs).fs) =
      ⟨(ManageImages.generate_pins catalog fs).fs, 0, []⟩ := by
  cases catalog with
  | none =>
    have key := pins_pipeline_idem []
      (fun j hj => absurd hj (List.not_mem_nil _)) fs
    simp only [ManageImages.generate_pins]
    rw [key]
  | some images =>
    have key := pins_pipeline_idem (ManageImages.pinJobsFromCatalog images)
      (pinJobsFromCatalog_shaped images) fs
    simp only [ManageImages.generate_pins]
    rw [key]

lemma lookupFile_none_not_mem (l : List (FsPath × String)) (p : FsPath)
    (h : lookupFile l p = none) : ∀ f ∈ l, f.1 ≠ p := by
  induction l with
  | nil => intro f hf; exact absurd hf (List.not_mem_nil _)
  | cons a l ih =>
    intro f hf
    simp only [lookupFile] at h
    split at h
    · exact absurd h (by simp)
    · rename_i hne
      rcases List.mem_cons.mp hf with rfl | hmem
      · exact hne
      · exact ih h f hmem

lemma entries_writeFile (fs : FS) (p : FsPath) (c : String) :
    ∀ f ∈ (fs.writeFile p c).files, f.1 = p → f = (p, c) := by
  unfold FS.writeFile
  split
  · intro f hf hkey
    rcases List.mem_map.mp hf with ⟨g, hg, rfl⟩
    by_cases hgp : g.1 = p
    · simp [hgp]
    · have hh : (if g.1 == p then (p, c) else g) = g := by simp [hgp]
      rw [hh] at hkey
      exact absurd hkey hgp
  · rename_i hex
    intro f hf hkey
    have hnone : lookupFile fs.files p = none := by
      unfold FS.fileExistsB FS.fileContent at hex
      cases hl : lookupFile fs.files p with
      | none => rfl
      | some v => rw [hl] at hex; simp at hex
    rcases List.mem_append.mp hf with h1 | h1
    · exact absurd hkey (lookupFile_none_not_mem _ _ hnone f h1)
    · rcases List.mem_singleton.mp h1 with rfl
      rfl

lemma map_replace_id (p : FsPath) (c : String) :
    ∀ (l : List (FsPath × String)), (∀ f ∈ l, f.1 = p → f = (p, c)) →
      l.map (fun f => if f.1 == p then (p, c) else f) = l := by
  intro l h
  induction l with
  | nil => rfl
  | cons f l ih =>
    simp only [List.map_cons]
    by_cases hfp : f.1 = p
    · have : f = (p, c) := h f (List.mem_cons_self _ _) hfp
      rw [List.cons_eq_cons]
      constructor
      · rw [this]
        simp
      · exact ih (fun g hg => h g (List.mem_cons_of_mem _ hg))
    · rw [List.cons_eq_cons]
      constructor
      · simp [hfp]
      · exact ih (fun g hg => h g (List.mem_cons_of_mem _ hg))

lemma writeFile_id (g : FS) (p : FsPath) (c : String)
    (hex : g.fileExistsB p = true)
    (hent : ∀ f ∈ g.files, f.1 = p → f = (p, c)) : g.writeFile p c = g := by
  unfold FS.writeFile
  rw [if_pos hex]
  have hmap := map_replace_id p c g.files hent
  cases g with
  | mk fl dl =>
    simp only at hmap ⊢
    rw [hmap]

lemma writeFile_writeFile_same (fs : FS) (p : FsPath) (c : String) :
    (fs.writeFile p c).writeFile p c = fs.writeFile p c :=
  writeFile_id _ p c (fileExistsB_writeFile_self fs p c) (entries_writeFile fs p c)

/-- The pair of observations `harvest_digests` makes about the pins tree. -/
def pinsView (fs : FS) : Bool × List (FsPath × String) :=
  (fs.dirs.contains pinsRoot, fs.walkDockerfiles pinsRoot)

lemma pinsView_writeFile_dj (fs : FS) (c : String) :
    pinsView (fs.writeFile ["digests.json"] c) = pinsView fs := by
  unfold pinsView
  rw [dirs_writeFile, walk_writeFile_out fs ["digests.json"] c pinsRoot (by decide)]

/-- The successful branch of `harvest_digests`, spelled out. -/
lemma harvest_core (fs : FS) (hc : fs.dirs.contains pinsRoot = true) :
    ManageImages.harvest_digests fs =
      ⟨fs.writeFile ["digests.json"]
         (serializeIndex ((fs.walkDockerfiles pinsRoot).foldl ManageImages.harvestStep ([], 0)).1),
       0,
       ((fs.walkDockerfiles pinsRoot).foldl ManageImages.harvestStep ([], 0)).1,
       ((fs.walkDockerfiles pinsRoot).foldl ManageImages.harvestStep ([], 0)).2⟩ := by
  unfold ManageImages.harvest_digests
  rw [if_pos hc]

/-- The failing branch of `harvest_digests`, spelled out. -/
lemma harvest_none (fs : FS) (hc : fs.dirs.contains pinsRoot = false) :
    ManageImages.harvest_digests fs = ⟨fs, 1, [], 0⟩ := by
  unfold ManageImages.harvest_digests
  rw [if_neg (show ¬(fs.dirs.contains pinsRoot = true) by rw [hc]; exact Bool.false_ne_true)]

/-- harvest-digests part of the idempotence argument. -/
lemma harvest_digests_idem (fs : FS) :
    ManageImages.harvest_digests ((ManageImages.harvest_digests fs).fs) =
      ⟨(ManageImages.harvest_digests fs).fs, (ManageImages.harvest_digests fs).rc,
       (ManageImages.harvest_digests fs).index, (ManageImages.harvest_digests fs).skipped⟩ := by
  cases hc : fs.dirs.contains pinsRoot with
  | false =>
    have h1 := harvest_none fs hc
    rw [h1]
    exact h1
  | true =>
    have h1 := harvest_core fs hc
    rw [h1]
    show ManageImages.harvest_digests
        (fs.writeFile ["digests.json"]
          (serializeIndex ((fs.walkDockerfiles pinsRoot).foldl ManageImages.harvestStep ([], 0)).1)) =
      ⟨fs.writeFile ["digests.json"]
         (serializeIndex ((fs.walkDockerfiles pinsRoot).foldl ManageImages.harvestStep ([], 0)).1),
       0,
       ((fs.walkDockerfiles pinsRoot).foldl ManageImages.harvestStep ([], 0)).1,
       ((fs.walkDockerfiles pinsRoot).foldl ManageImages.harvestStep ([], 0)).2⟩
    have hc1 : (fs.writeFile ["digests.json"]
        (serializeIndex ((fs.walkDockerfiles pinsRoot).foldl ManageImages.harvestStep ([], 0)).1)).dirs.contains
          pinsRoot = true := by
      rw [dirs_writeFile]
      exact hc
    rw [harvest_core _ hc1]
    have hwalk : (fs.writeFile ["digests.json"]
        (serializeIndex ((fs.walkDockerfiles pinsRoot).foldl ManageImages.harvestStep ([], 0)).1)).walkDockerfiles
          pinsRoot = fs.walkDockerfiles pinsRoot :=
      walk_writeFile_out fs _ _ pinsRoot (by decide)
    rw [hwalk, writeFile_writeFile_same]

/-- Claim C7: each stage is idempotent — re-running `generate-versions`,
`generate-pins` or `harvest-digests` on the state its first run produced
yields that same state, an empty created list, the same exit code, and (for
the harvester) the identical index and skipped count. -/
theorem c7_idempotent (catalog : Option (List ImageSpec)) (fs : FS) :
    (ManageImages.generate_versions catalog ((ManageImages.generate_versions catalog fs).fs) =
      ⟨(ManageImages.generate_versions catalog fs).fs,
       (ManageImages.generate_versions catalog fs).rc, []⟩) ∧
    (ManageImages.generate_pins catalog ((ManageImages.generate_pins catalog fs).fs) =
      ⟨(ManageImages.generate_pins catalog fs).fs, 0, []⟩) ∧
    (ManageImages.harvest_digests ((ManageImages.harvest_digests fs).fs) =
      ⟨(ManageImages.harvest_digests fs).fs, (ManageImages.harvest_digests fs).rc,
       (ManageImages.harvest_digests fs).index, (ManageImages.harvest_digests fs).skipped⟩) :=
  ⟨generate_versions_idem catalog fs, generate_pins_idem catalog fs, harvest_digests_idem fs⟩

/-! ## C5: defaulting versus preserved absence -/

/-- A pins tree holding one digest-pinned directive whose FROM line names
neither a tag nor a platform. -/
def fsC5 : FS :=
  ⟨[(["nix", "_dockerfiles", "pins", "busybox", "default", "x", "Dockerfile"],
     "FROM busybox@sha256:aaaaaaaaaaaaaaaaaaaaaaaaaaaaaaaaaaaaaaaaaaaaaaaaaaaaaaaaaaaaaaaa\n")],
   [["nix"], ["nix", "_dockerfiles"], ["nix", "_dockerfiles", "pins"],
    ["nix", "_dockerfiles", "pins", "busybox"],
    ["nix", "_dockerfiles", "pins", "busybox", "default"],
    ["nix", "_dockerfiles", "pins", "busybox", "default", "x"]]⟩

/-- Claim C5 counterexample: the parser used by `harvest-digests` and by the
harvesting pass of `generate-pins` (manage-images.py `parse_dockerfile`)
substitutes the defaults `latest` and `linux/amd64` for an absent tag and
platform instead of preserving the absence, and the harvested index for a
tagless pinned directive accordingly carries an entry under the defaulted
key. -/
theorem c5_counterexample :
    ManageImages.parse_dockerfile "FROM busybox\n" =
      some ⟨"linux/amd64", "busybox", "latest", none⟩ ∧
    lookup3 (ManageImages.harvest_digests fsC5).index ("busybox", "latest", "linux/amd64") =
      some "busybox:latest@sha256:aaaaaaaaaaaaaaaaaaaaaaaaaaaaaaaaaaaaaaaaaaaaaaaaaaaaaaaaaaaaaaaa" := by
  constructor
  · decide
  · decide

/-- Claim C5 (amended): only the legacy harvest-tags.py parser preserves the
absence of a tag or platform; there a FROM line without a tag contributes no
valid pin (the file is skipped).  The consolidated manage-images parser —
the one used by harvest-digests and by the harvesting pass of generate-pins
— substitutes the defaults `latest` / `linux/amd64` in every context. -/
theorem c5_amended (content : String) (r : RawParts)
    (h : parseRaw content = some r) (htag : r.tag = none) :
    HarvestTags.parse_dockerfile content =
      some ⟨r.platform.map listToStr, listToStr r.image, none⟩ ∧
    HarvestTags.pin_contribution content = none ∧
    (∃ r', ManageImages.parse_dockerfile content = some r' ∧ r'.tag = "latest" ∧
      (r.platform = none → r'.platform = "linux/amd64")) := by
  refine ⟨?_, ?_, ?_⟩
  · unfold HarvestTags.parse_dockerfile
    rw [h]
    simp [htag]
  · unfold HarvestTags.pin_contribution HarvestTags.parse_dockerfile
    rw [h]
    simp [htag]
  · refine ⟨⟨(match r.platform with
        | some p => listToStr p
        | none => "linux/amd64"), listToStr r.image, "latest", r.digest.map listToStr⟩,
      ?_, rfl, ?_⟩
    · unfold ManageImages.parse_dockerfile
      rw [h]
      simp [htag]
    · intro hplat
      simp [hplat]

/-- Witness for `c5_amended` on the concrete content `FROM busybox`. -/
theorem c5_amended_witness :
    parseRaw "FROM busybox\n" =
      some ⟨none, ['b', 'u', 's', 'y', 'b', 'o', 'x'], none, none⟩ ∧
    (HarvestTags.parse_dockerfile "FROM busybox\n" = some ⟨none, "busybox", none⟩ ∧
     HarvestTags.pin_contribution "FROM busybox\n" = none) :=
  have h : parseRaw "FROM busybox\n" =
      some ⟨none, ['b', 'u', 's', 'y', 'b', 'o', 'x'], none, none⟩ := by decide
  have hmain := c5_amended "FROM busybox\n" ⟨none, ['b', 'u', 's', 'y', 'b', 'o', 'x'], none, none⟩ h rfl
  ⟨h, hmain.1, hmain.2.1⟩

/-! ## C9: the digest index is a function of the pins tree alone -/

lemma harvest_components_eq (fs1 fs2 : FS) (h : pinsView fs1 = pinsView fs2) :
    (ManageImages.harvest_digests fs1).index = (ManageImages.harvest_digests fs2).index ∧
    (ManageImages.harvest_digests fs1).skipped = (ManageImages.harvest_digests fs2).skipped ∧
    (ManageImages.harvest_digests fs1).rc = (ManageImages.harvest_digests fs2).rc := by
  have hc : fs1.dirs.contains pinsRoot = fs2.dirs.contains pinsRoot := by
    have := congrArg Prod.fst h
    simpa [pinsView] using this
  have hw : fs1.walkDockerfiles pinsRoot = fs2.walkDockerfiles pinsRoot := by
    have := congrArg Prod.snd h
    simpa [pinsView] using this
  cases hc1 : fs1.dirs.contains pinsRoot with
  | false =>
    have hc2 : fs2.dirs.contains pinsRoot = false := by rw [← hc]; exact hc1
    rw [harvest_none fs1 hc1, harvest_none fs2 hc2]
    exact ⟨rfl, rfl, rfl⟩
  | true =>
    have hc2 : fs2.dirs.contains pinsRoot = true := by rw [← hc]; exact hc1
    rw [harvest_core fs1 hc1, harvest_core fs2 hc2, hw]
    exact ⟨rfl, rfl, rfl⟩

/-- Claim C9: the harvested digest index is a deterministic function of the
pins tree (directory presence plus the walked pin files) alone.  Equal pins
views give the identical index, skipped count and exit code; the serialized
(sort-keyed) output is byte-identical, and on success both runs leave the
same `digests.json` content.  Moreover the result is independent of any
previously written `digests.json`: overwriting it does not change the pins
view, hence not the index. -/
theorem c9_deterministic (fs1 fs2 : FS) (h : pinsView fs1 = pinsView fs2) :
    (ManageImages.harvest_digests fs1).index = (ManageImages.harvest_digests fs2).index ∧
    (ManageImages.harvest_digests fs1).skipped = (ManageImages.harvest_digests fs2).skipped ∧
    (ManageImages.harvest_digests fs1).rc = (ManageImages.harvest_digests fs2).rc ∧
    serializeIndex (ManageImages.harvest_digests fs1).index =
      serializeIndex (ManageImages.harvest_digests fs2).index ∧
    (fs1.dirs.contains pinsRoot = true →
      (ManageImages.harvest_digests fs1).fs.fileContent ["digests.json"] =
        (ManageImages.harvest_digests fs2).fs.fileContent ["digests.json"]) ∧
    (∀ c : String,
      (ManageImages.harvest_digests (fs1.writeFile ["digests.json"] c)).index =
        (ManageImages.harvest_digests fs1).index) := by
  obtain ⟨hidx, hsk, hrc⟩ := harvest_components_eq fs1 fs2 h
  refine ⟨hidx, hsk, hrc, by rw [hidx], ?_, ?_⟩
  · intro hc1
    have hc : fs1.dirs.contains pinsRoot = fs2.dirs.contains pinsRoot := by
      have := congrArg Prod.fst h
      simpa [pinsView] using this
    have hc2 : fs2.dirs.contains pinsRoot = true := by rw [← hc]; exact hc1
    rw [harvest_core fs1 hc1, harvest_core fs2 hc2]
    have hw : fs1.walkDockerfiles pinsRoot = fs2.walkDockerfiles pinsRoot := by
      have := congrArg Prod.snd h
      simpa [pinsView] using this
    rw [hw]
    rw [fileContent_writeFile_self, fileContent_writeFile_self]
  · intro c
    exact (harvest_components_eq _ _ (pinsView_writeFile_dj fs1 c)).1

/-- Two states with the same pins tree but different `digests.json` content
and an extra unrelated file in one of them. -/
def fsC9a : FS :=
  ⟨[(["digests.json"], "stale"), (pinPathW, pinContentW)],
   [["nix"], ["nix", "_dockerfiles"], ["nix", "_dockerfiles", "pins"],
    ["nix", "_dockerfiles", "pins", "busybox"],
    ["nix", "_dockerfiles", "pins", "busybox", "linux_amd64"],
    ["nix", "_dockerfiles", "pins", "busybox", "linux_amd64", "1"]]⟩

def fsC9b : FS :=
  ⟨[(["images.json"], "[]"), (pinPathW, pinContentW)],
   [["nix"], ["nix", "_dockerfiles"], ["nix", "_dockerfiles", "pins"],
    ["nix", "_dockerfiles", "pins", "busybox"],
    ["nix", "_dockerfiles", "pins", "busybox", "linux_amd64"],
    ["nix", "_dockerfiles", "pins", "busybox", "linux_amd64", "1"]]⟩

/-- Witness for `c9_deterministic` at two concrete states differing only
outside the pins tree. -/
theorem c9_deterministic_witness :
    pinsView fsC9a = pinsView fsC9b ∧
    (ManageImages.harvest_digests fsC9a).index = (ManageImages.harvest_digests fsC9b).index :=
  have h : pinsView fsC9a = pinsView fsC9b := by decide
  ⟨h, (c9_deterministic fsC9a fsC9b h).1⟩

/-! ## C6: content of the harvested index -/

/-- The nested index key of a parsed (defaulted) reference. -/
def refKey (r : ParsedRef) : K3 := (r.image, r.tag, r.platform)

/-- The fully qualified reference string stored for a digest-bearing pin. -/
def refOf (r : ParsedRef) (d : String) : String :=
  r.image ++ ":" ++ r.tag ++ "@sha256:" ++ d

lemma lookup3_nil (k : K3) : lookup3 [] k = none := rfl

lemma lookup3_map_set_self (k : K3) (v : String) :
    ∀ (l : Assoc3), (l.any (fun e => e.1 == k)) = true →
      lookup3 (l.map (fun e => if e.1 == k then (k, v) else e)) k = some v := by
  intro l h
  induction l with
  | nil => simp at h
  | cons e l ih =>
    simp only [List.map_cons]
    by_cases hek : e.1 = k
    · have hh : (if e.1 == k then (k, v) else e) = (k, v) := by simp [hek]
      rw [hh]
      simp [lookup3]
    · have hh : (if e.1 == k then (k, v) else e) = e := by simp [hek]
      rw [hh]
      simp only [lookup3]
      rw [if_neg hek]
      apply ih
      simp only [List.any_cons, Bool.or_eq_true] at h
      rcases h with h1 | h1
      · exact absurd (by simpa using h1) hek
      · exact h1

lemma lookup3_append_single_of_not_any (k : K3) (v : String) :
    ∀ (l : Assoc3), (l.any (fun e => e.1 == k)) = false →
      lookup3 (l ++ [(k, v)]) k = some v := by
  intro l h
  induction l with
  | nil => simp [lookup3]
  | cons e l ih =>
    have he : (e.1 == k) = false := by
      cases hb : (e.1 == k) with
      | true => rw [List.any_cons, hb] at h; simp at h
      | false => rfl
    have ht : (l.any (fun e => e.1 == k)) = false := by
      cases hb : (l.any (fun e => e.1 == k)) with
      | true => rw [List.any_cons, hb] at h; simp at h
      | false => rfl
    simp only [List.cons_append, lookup3]
    rw [if_neg (by simpa using he)]
    exact ih ht

lemma lookup3_setEntry_self (idx : Assoc3) (k : K3) (v : String) :
    lookup3 (setEntry idx k v) k = some v := by
  unfold setEntry
  split
  · rename_i hany
    exact lookup3_map_set_self k v idx hany
  · rename_i hany
    apply lookup3_append_single_of_not_any
    cases hb : (idx.any (fun e => e.1 == k)) with
    | true => exact absurd hb hany
    | false => rfl

lemma lookup3_map_set_ne (k : K3) (v : String) (q : K3) (h : q ≠ k) :
    ∀ (l : Assoc3),
      lookup3 (l.map (fun e => if e.1 == k then (k, v) else e)) q = lookup3 l q := by
  intro l
  induction l with
  | nil => rfl
  | cons e l ih =>
    simp only [List.map_cons]
    by_cases hek : e.1 = k
    · have hh : (if e.1 == k then (k, v) else e) = (k, v) := by simp [hek]
      rw [hh]
      simp only [lookup3]
      rw [if_neg (show ¬(k, v).1 = q from fun hc => h hc.symm),
        if_neg (show ¬e.1 = q by rw [hek]; exact fun hc => h hc.symm)]
      exact ih
    · have hh : (if e.1 == k then (k, v) else e) = e := by simp [hek]
      rw [hh]
      simp only [lookup3]
      by_cases heq : e.1 = q
      · rw [if_pos heq, if_pos heq]
      · rw [if_neg heq, if_neg heq]
        exact ih

lemma lookup3_append_single_ne (k : K3) (v : String) (q : K3) (h : q ≠ k) :
    ∀ (l : Assoc3), lookup3 (l ++ [(k, v)]) q = lookup3 l q := by
  intro l
  induction l with
  | nil =>
    simp only [List.nil_append, lookup3]
    rw [if_neg (show ¬(k, v).1 = q from fun hc => h hc.symm)]
  | cons e l ih =>
    simp only [List.cons_append, lookup3]
    by_cases heq : e.1 = q
    · rw [if_pos heq, if_pos heq]
    · rw [if_neg heq, if_neg heq]
      exact ih

lemma lookup3_setEntry_ne (idx : Assoc3) (k : K3) (v : String) (q : K3) (h : q ≠ k) :
    lookup3 (setEntry idx k v) q = lookup3 idx q := by
  unfold setEntry
  split
  · exact lookup3_map_set_ne k v q h idx
  · exact lookup3_append_single_ne k v q h idx

lemma harvestStep_lookup_ne (acc : Assoc3 × Nat) (f : FsPath × String) (k : K3)
    (h : ∀ r d, ManageImages.parse_dockerfile f.2 = some r → r.digest = some d → refKey r ≠ k) :
    lookup3 (ManageImages.harvestStep acc f).1 k = lookup3 acc.1 k := by
  unfold ManageImages.harvestStep
  split
  · rfl
  · rename_i r hp
    split
    · rename_i d hd
      exact lookup3_setEntry_ne _ _ _ _ (fun hc => h r d hp hd hc.symm)
    · rfl

lemma harvest_fold_lookup_none :
    ∀ (l : List (FsPath × String)) (acc : Assoc3 × Nat) (k : K3),
      (∀ f ∈ l, ∀ r d, ManageImages.parse_dockerfile f.2 = some r →
        r.digest = some d → refKey r ≠ k) →
      lookup3 (l.foldl ManageImages.harvestStep acc).1 k = lookup3 acc.1 k := by
  intro l
  induction l with
  | nil => intro acc k _; rfl
  | cons g l ih =>
    intro acc k h
    simp only [List.foldl_cons]
    rw [ih _ _ (fun f hf => h f (List.mem_cons_of_mem _ hf))]
    exact harvestStep_lookup_ne acc g k (h g (List.mem_cons_self _ _))

lemma harvestStep_lookup_stable (acc : Assoc3 × Nat) (g : FsPath × String) (k : K3) (v : String)
    (h : lookup3 acc.1 k = some v)
    (hag : ∀ r d, ManageImages.parse_dockerfile g.2 = some r →
      r.digest = some d → refKey r = k → refOf r d = v) :
    lookup3 (ManageImages.harvestStep acc g).1 k = some v := by
  unfold ManageImages.harvestStep
  split
  · exact h
  · rename_i r hp
    split
    · rename_i d hd
      by_cases hk : refKey r = k
      · have hv : refOf r d = v := hag r d hp hd hk
        calc lookup3 (setEntry acc.1 (r.image, r.tag, r.platform) (refOf r d)) k
            = lookup3 (setEntry acc.1 (refKey r) (refOf r d)) k := rfl
          _ = lookup3 (setEntry acc.1 k (refOf r d)) k := by rw [hk]
          _ = some (refOf r d) := lookup3_setEntry_self acc.1 k (refOf r d)
          _ = some v := by rw [hv]
      · calc lookup3 (setEntry acc.1 (r.image, r.tag, r.platform) (refOf r d)) k
            = lookup3 (setEntry acc.1 (refKey r) (refOf r d)) k := rfl
          _ = lookup3 acc.1 k := lookup3_setEntry_ne _ _ _ _ (fun hc => hk hc.symm)
          _ = some v := h
    · exact h

lemma harvest_fold_stable :
    ∀ (l : List (FsPath × String)) (acc : Assoc3 × Nat) (k : K3) (v : String),
      lookup3 acc.1 k = some v →
      (∀ f ∈ l, ∀ r d, ManageImages.parse_dockerfile f.2 = some r →
        r.digest = some d → refKey r = k → refOf r d = v) →
      lookup3 (l.foldl ManageImages.harvestStep acc).1 k = some v := by
  intro l
  induction l with
  | nil => intro acc k v h _; exact h
  | cons g l ih =>
    intro acc k v h hag
    simp only [List.foldl_cons]
    exact ih _ _ _
      (harvestStep_lookup_stable acc g k v h (hag g (List.mem_cons_self _ _)))
      (fun f hf => hag f (List.mem_cons_of_mem _ hf))

lemma harvestStep_insert (acc : Assoc3 × Nat) (f : FsPath × String)
    (r : ParsedRef) (d : String)
    (hp : ManageImages.parse_dockerfile f.2 = some r) (hd : r.digest = some d) :
    lookup3 (ManageImages.harvestStep acc f).1 (refKey r) = some (refOf r d) := by
  unfold ManageImages.harvestStep
  split
  · rename_i hnone
    rw [hp] at hnone
    exact absurd hnone (by simp)
  · rename_i r' hp'
    rw [hp] at hp'
    injection hp' with hr
    subst hr
    split
    · rename_i d' hd'
      rw [hd] at hd'
      injection hd' with hdd
      subst hdd
      exact lookup3_setEntry_self acc.1 (refKey r) (refOf r d)
    · rename_i hd'
      rw [hd] at hd'
      exact absurd hd' (by simp)

lemma harvest_fold_found :
    ∀ (l : List (FsPath × String)) (acc : Assoc3 × Nat) (f : FsPath × String)
      (r : ParsedRef) (d : String),
      f ∈ l → ManageImages.parse_dockerfile f.2 = some r → r.digest = some d →
      (∀ g ∈ l, ∀ r' d', ManageImages.parse_dockerfile g.2 = some r' →
        r'.digest = some d' → refKey r' = refKey r → refOf r' d' = refOf r d) →
      lookup3 (l.foldl ManageImages.harvestStep acc).1 (refKey r) = some (refOf r d) := by
  intro l
  induction l with
  | nil => intro acc f r d hf; exact absurd hf (List.not_mem_nil _)
  | cons g l ih =>
    intro acc f r d hf hp hd hag
    rcases List.mem_cons.mp hf with rfl | hmem
    · simp only [List.foldl_cons]
      exact harvest_fold_stable l _ _ _
        (harvestStep_insert acc f r d hp hd)
        (fun g' hg' => hag g' (List.mem_cons_of_mem _ hg'))
    · simp only [List.foldl_cons]
      exact ih _ f r d hmem hp hd (fun g' hg' => hag g' (List.mem_cons_of_mem _ hg'))

/-- Claim C6 (amended): the harvested index never contains an entry that no
digest-carrying directive produced — in particular a key reached only by
digestless directives (counted as skipped) stays absent; and every
digest-carrying directive appears at `[image][tag][platform]` with the
reference `image:tag@sha256:digest`, provided no later-walked
digest-carrying directive maps the same (image, tag, platform) key to a
different reference (Python dict assignment overwrites; the last writer
wins). -/
theorem c6_amended (fs : FS) (hc : fs.dirs.contains pinsRoot = true) :
    (∀ k : K3,
      (∀ f ∈ fs.walkDockerfiles pinsRoot, ∀ r d,
        ManageImages.parse_dockerfile f.2 = some r → r.digest = some d → refKey r ≠ k) →
      lookup3 (ManageImages.harvest_digests fs).index k = none) ∧
    (∀ f ∈ fs.walkDockerfiles pinsRoot, ∀ r d,
      ManageImages.parse_dockerfile f.2 = some r → r.digest = some d →
      (∀ g ∈ fs.walkDockerfiles pinsRoot, ∀ r' d',
        ManageImages.parse_dockerfile g.2 = some r' → r'.digest = some d' →
        refKey r' = refKey r → refOf r' d' = refOf r d) →
      lookup3 (ManageImages.harvest_digests fs).index (refKey r) = some (refOf r d)) := by
  constructor
  · intro k hnone
    rw [harvest_core fs hc]
    exact harvest_fold_lookup_none (fs.walkDockerfiles pinsRoot) ([], 0) k hnone
  · intro f hf r d hp hd hag
    rw [harvest_core fs hc]
    exact harvest_fold_found (fs.walkDockerfiles pinsRoot) ([], 0) f r d hf hp hd hag

def digestA : String := "aaaaaaaaaaaaaaaaaaaaaaaaaaaaaaaaaaaaaaaaaaaaaaaaaaaaaaaaaaaaaaaa"

def refW : ParsedRef := ⟨"linux/amd64", "busybox", "1", some digestA⟩

/-- Witness for `c6_amended`: in the single-pin state `fsC9b`, the
digest-carrying directive surfaces at its key with its full reference. -/
theorem c6_amended_witness :
    fsC9b.dirs.contains pinsRoot = true ∧
    lookup3 (ManageImages.harvest_digests fsC9b).index (refKey refW) = some (refOf refW digestA) :=
  have hc : fsC9b.dirs.contains pinsRoot = true := by decide
  have hww : fsC9b.walkDockerfiles pinsRoot = [(pinPathW, pinContentW)] := by decide
  have hp : ManageImages.parse_dockerfile pinContentW = some refW := by decide
  have hf : (pinPathW, pinContentW) ∈ fsC9b.walkDockerfiles pinsRoot := by
    rw [hww]; exact List.mem_singleton.mpr rfl
  have hag : ∀ g ∈ fsC9b.walkDockerfiles pinsRoot, ∀ r' d',
      ManageImages.parse_dockerfile g.2 = some r' → r'.digest = some d' →
      refKey r' = refKey refW → refOf r' d' = refOf refW digestA := by
    intro g hg r' d' hp' hd' _
    rw [hww] at hg
    rw [List.mem_singleton.mp hg] at hp'
    rw [hp] at hp'
    injection hp' with hr
    rw [← hr] at hd'
    have hdd : some digestA = some d' := hd'
    injection hdd with hdd
    rw [← hr, ← hdd]
  ⟨hc, (c6_amended fsC9b hc).2 (pinPathW, pinContentW) hf refW digestA hp rfl hag⟩

def digestB : String := "bbbbbbbbbbbbbbbbbbbbbbbbbbbbbbbbbbbbbbbbbbbbbbbbbbbbbbbbbbbbbbbb"

/-- Two pin files at distinct paths whose FROM lines parse to the same
(image, tag, platform) but carry different digests. -/
def fsC6 : FS :=
  ⟨[(["nix", "_dockerfiles", "pins", "img", "linux_amd64", "t1", "Dockerfile"],
     "FROM --platform=linux/amd64 img:1@sha256:" ++ digestA ++ "\n"),
    (["nix", "_dockerfiles", "pins", "img", "linux_amd64", "t2", "Dockerfile"],
     "FROM --platform=linux/amd64 img:1@sha256:" ++ digestB ++ "\n")],
   [["nix"], ["nix", "_dockerfiles"], ["nix", "_dockerfiles", "pins"],
    ["nix", "_dockerfiles", "pins", "img"],
    ["nix", "_dockerfiles", "pins", "img", "linux_amd64"],
    ["nix", "_dockerfiles", "pins", "img", "linux_amd64", "t1"],
    ["nix", "_dockerfiles", "pins", "img", "linux_amd64", "t2"]]⟩

/-- Claim C6 counterexample: the first directive of `fsC6` carries the
64-hex digest `digestA`, yet the harvested entry at its
`[image][tag][platform]` key is the second directive's reference, not
`img:1@sha256:digestA` — so the claim's "contains an entry … equal to
image:tag@sha256:digest for every pin directive carrying a digest" fails. -/
theorem c6_counterexample :
    ManageImages.parse_dockerfile
        ("FROM --platform=linux/amd64 img:1@sha256:" ++ digestA ++ "\n") =
      some ⟨"linux/amd64", "img", "1", some digestA⟩ ∧
    (["nix", "_dockerfiles", "pins", "img", "linux_amd64", "t1", "Dockerfile"],
      "FROM --platform=linux/amd64 img:1@sha256:" ++ digestA ++ "\n") ∈
        fsC6.walkDockerfiles pinsRoot ∧
    lookup3 (ManageImages.harvest_digests fsC6).index ("img", "1", "linux/amd64") =
      some ("img:1@sha256:" ++ digestB) ∧
    lookup3 (ManageImages.harvest_digests fsC6).index ("img", "1", "linux/amd64") ≠
      some ("img:1@sha256:" ++ digestA) := by
  refine ⟨by decide, by decide, by decide, by decide⟩

/-! ## C10: create/parse round trip -/

lemma str_data_append (a b : String) : (a ++ b).data = a.data ++ b.data := by
  cases a
  cases b
  rfl

lemma takeWhile_all (f : Char → Bool) :
    ∀ (l : List Char), (∀ c ∈ l, f c = true) → l.takeWhile f = l := by
  intro l h
  induction l with
  | nil => rfl
  | cons c cs ih =>
    simp [List.takeWhile_cons, h c (List.mem_cons_self _ _),
      ih (fun x hx => h x (List.mem_cons_of_mem _ hx))]

lemma takeWhile_append_stop (f : Char → Bool) :
    ∀ (l : List Char) (x : Char) (xs : List Char),
      (∀ c ∈ l, f c = true) → f x = false → ((l ++ x :: xs).takeWhile f) = l := by
  intro l x xs h hx
  induction l with
  | nil => simp [List.takeWhile_cons, hx]
  | cons c cs ih =>
    simp [List.cons_append, List.takeWhile_cons, h c (List.mem_cons_self _ _),
      ih (fun y hy => h y (List.mem_cons_of_mem _ hy))]

lemma matchEnd_false_of_no_space :
    ∀ (s : List Char), s ≠ [] → (∀ c ∈ s, pySpace c = false) → matchEnd s = false := by
  intro s hne h
  unfold matchEnd
  cases s with
  | nil => exact absurd rfl hne
  | cons a s1 =>
    have ha := h a (List.mem_cons_self _ _)
    have h1 : (a :: s1).all pySpace = false := by
      simp [List.all_cons, ha]
    have h2 : (a :: s1).dropWhile pySpace = a :: s1 := by
      simp [List.dropWhile_cons, ha]
    rw [h1, h2, Bool.false_or]
    cases s1 with
    | nil => rfl
    | cons b s2 =>
      cases s2 with
      | nil => rfl
      | cons c s3 =>
        have hc := h c (by simp)
        unfold matchASRest
        simp [hc]

lemma ciMatch_at_eq (c : Char) : ciMatch '@' c = false ↔ c ≠ '@' := by
  unfold ciMatch
  constructor
  · intro h hc
    rw [hc] at h
    simp at h
  · intro hc
    have h1 : Char.toUpper '@' = '@' := rfl
    have h2 : Char.toLower '@' = '@' := rfl
    rw [h1, h2]
    simp [hc]

lemma matchDigestEnd_none_of (c : Char) (w : List Char) (hc : c ≠ '@')
    (hs : ∀ x ∈ c :: w, pySpace x = false) : matchDigestEnd (c :: w) = none := by
  unfold matchDigestEnd
  have hcp : ciPrefix digestLit (c :: w) = none := by
    unfold digestLit ciPrefix
    rw [if_neg]
    rw [Bool.not_eq_true]
    exact (ciMatch_at_eq c).mpr hc
  rw [hcp]
  rw [matchEnd_false_of_no_space _ (by simp) hs]
  rfl

lemma matchTagEnd_none_of (c : Char) (w : List Char) (hcol : c ≠ ':') (hc : c ≠ '@')
    (hs : ∀ x ∈ c :: w, pySpace x = false) : matchTagEnd (c :: w) = none := by
  simp only [matchTagEnd]
  rw [if_neg hcol, matchDigestEnd_none_of c w hc hs]

lemma matchDigestEnd_nil : matchDigestEnd [] = some none := rfl

lemma tryTagLens_full (t : List Char) (ht : t ≠ []) : tryTagLens t [] = some (t, none) := by
  unfold tryTagLens
  cases hrev : t.reverse with
  | nil => exact absurd (List.reverse_eq_nil_iff.mp hrev) ht
  | cons c rest =>
    unfold tryTagRev
    rw [matchDigestEnd_nil]
    simp only
    rw [← hrev, List.reverse_reverse]

lemma matchTagEnd_tag (t : List Char) (ht : t ≠ [])
    (htc : ∀ c ∈ t, pySpace c = false ∧ c ≠ '@') :
    matchTagEnd (':' :: t) = some (some t, none) := by
  simp only [matchTagEnd]
  rw [if_pos trivial]
  have hr : t.takeWhile (fun x => !pySpace x && x ≠ '@') = t := by
    apply takeWhile_all
    intro c hc
    simp [(htc c hc).1, (htc c hc).2]
  simp only [hr, List.drop_length]
  rw [tryTagLens_full t ht]

lemma matchImageRest_roundtrip (t : List Char) (ht : t ≠ [])
    (htc : ∀ c ∈ t, pySpace c = false ∧ c ≠ '@') :
    ∀ (pre acc : List Char),
      (∀ c ∈ pre, pySpace c = false ∧ c ≠ ':' ∧ c ≠ '@') →
      matchImageRest acc (pre ++ ':' :: t) = some (acc ++ pre, some t, none) := by
  intro pre
  induction pre with
  | nil =>
    intro acc _
    simp only [List.nil_append, List.append_nil]
    simp only [matchImageRest, matchTagEnd_tag t ht htc]
  | cons c pre' ih =>
    intro acc hpre
    obtain ⟨hcs, hcc, hca⟩ := hpre c (List.mem_cons_self _ _)
    have hns : ∀ x ∈ c :: (pre' ++ ':' :: t), pySpace x = false := by
      intro x hx
      rcases List.mem_cons.mp hx with rfl | hx2
      · exact hcs
      · rcases List.mem_append.mp hx2 with h3 | h3
        · exact (hpre x (List.mem_cons_of_mem _ h3)).1
        · rcases List.mem_cons.mp h3 with rfl | h4
          · decide
          · exact (htc x h4).1
    have hmt : matchTagEnd (c :: (pre' ++ ':' :: t)) = none :=
      matchTagEnd_none_of c _ hcc hca hns
    have hstep : matchImageRest acc ((c :: pre') ++ ':' :: t) =
        matchImageRest (acc ++ [c]) (pre' ++ ':' :: t) := by
      simp only [List.cons_append, matchImageRest, List.append_eq, hmt]
      rw [if_neg (by simp [hcs])]
    rw [hstep, ih (acc ++ [c]) (fun x hx => hpre x (List.mem_cons_of_mem _ hx))]
    simp [List.append_assoc]

lemma matchRest_roundtrip (i t : List Char) (hi : i ≠ [])
    (hic : ∀ c ∈ i, pySpace c = false ∧ c ≠ ':' ∧ c ≠ '@')
    (ht : t ≠ []) (htc : ∀ c ∈ t, pySpace c = false ∧ c ≠ '@') :
    matchRest (i ++ ':' :: t) = some (i, some t, none) := by
  cases i with
  | nil => exact absurd rfl hi
  | cons c i' =>
    simp only [List.cons_append, matchRest]
    rw [if_neg (by simp [(hic c (List.mem_cons_self _ _)).1])]
    rw [matchImageRest_roundtrip t ht htc i' [c]
      (fun x hx => hic x (List.mem_cons_of_mem _ hx))]
    simp

lemma ciPrefix_self : ∀ (l rest : List Char), ciPrefix l (l ++ rest) = some rest := by
  intro l rest
  induction l with
  | nil => rfl
  | cons c cs ih =>
    simp only [List.cons_append, ciPrefix]
    rw [if_pos (by simp [ciMatch])]
    exact ih

lemma matchAfterFrom_roundtrip (p i t : List Char)
    (hp : p ≠ []) (hpc : ∀ c ∈ p, pySpace c = false)
    (hi : i ≠ []) (hic : ∀ c ∈ i, pySpace c = false ∧ c ≠ ':' ∧ c ≠ '@')
    (ht : t ≠ []) (htc : ∀ c ∈ t, pySpace c = false ∧ c ≠ '@') :
    matchAfterFrom (platLit ++ (p ++ ' ' :: (i ++ ':' :: t))) =
      some ⟨some p, i, some t, none⟩ := by
  obtain ⟨c0, i', rfl⟩ : ∃ c0 i', i = c0 :: i' := by
    cases i with
    | nil => exact absurd rfl hi
    | cons a b => exact ⟨a, b, rfl⟩
  unfold matchAfterFrom
  rw [ciPrefix_self platLit (p ++ ' ' :: (c0 :: i' ++ ':' :: t))]
  simp only
  have htake : (p ++ ' ' :: (c0 :: i' ++ ':' :: t)).takeWhile (fun c => !pySpace c) = p := by
    apply takeWhile_append_stop
    · intro c hc
      simp [hpc c hc]
    · decide
  rw [htake, if_neg hp]
  rw [List.drop_left]
  have hsp : (' ' :: (c0 :: i' ++ ':' :: t)).takeWhile pySpace = [' '] := by
    have := takeWhile_append_stop pySpace [' '] c0 (i' ++ ':' :: t)
      (by intro c hc; rcases List.mem_singleton.mp hc with rfl; decide)
      (hic c0 (List.mem_cons_self _ _)).1
    simpa using this
  rw [hsp]
  rw [if_neg (by simp)]
  have hdrop : (' ' :: (c0 :: i' ++ ':' :: t)).drop [' '].length = c0 :: i' ++ ':' :: t := rfl
  rw [hdrop]
  rw [matchRest_roundtrip (c0 :: i') t hi hic ht htc]

lemma matchFromLine_roundtrip (p i t : List Char)
    (hp : p ≠ []) (hpc : ∀ c ∈ p, pySpace c = false)
    (hi : i ≠ []) (hic : ∀ c ∈ i, pySpace c = false ∧ c ≠ ':' ∧ c ≠ '@')
    (ht : t ≠ []) (htc : ∀ c ∈ t, pySpace c = false ∧ c ≠ '@') :
    matchFromLine ('F' :: 'R' :: 'O' :: 'M' :: ' ' :: (platLit ++ (p ++ ' ' :: (i ++ ':' :: t)))) =
      some ⟨some p, i, some t, none⟩ := by
  unfold matchFromLine
  have hfrom : ciPrefix fromLit
      ('F' :: 'R' :: 'O' :: 'M' :: ' ' :: (platLit ++ (p ++ ' ' :: (i ++ ':' :: t)))) =
      some (' ' :: (platLit ++ (p ++ ' ' :: (i ++ ':' :: t)))) := rfl
  rw [hfrom]
  simp only
  have hsp : (' ' :: (platLit ++ (p ++ ' ' :: (i ++ ':' :: t)))).takeWhile pySpace = [' '] := by
    have := takeWhile_append_stop pySpace [' '] '-'
      (('-' :: 'p' :: 'l' :: 'a' :: 't' :: 'f' :: 'o' :: 'r' :: 'm' :: '=' :: []) ++
        (p ++ ' ' :: (i ++ ':' :: t)))
      (by intro c hc; rcases List.mem_singleton.mp hc with rfl; decide)
      (by decide)
    simpa [platLit] using this
  rw [hsp]
  rw [if_neg (by simp)]
  have hdrop : (' ' :: (platLit ++ (p ++ ' ' :: (i ++ ':' :: t)))).drop [' '].length =
      platLit ++ (p ++ ' ' :: (i ++ ':' :: t)) := rfl
  rw [hdrop]
  exact matchAfterFrom_roundtrip p i t hp hpc hi hic ht htc

lemma splitLinesAux_noBreak :
    ∀ (rest cur : List Char), (∀ c ∈ rest, lineBreakChar c = false) →
      splitLinesAux cur (rest ++ ['\n']) = [cur ++ rest] := by
  intro rest
  induction rest with
  | nil =>
    intro cur h
    simp [splitLinesAux, (by decide : lineBreakChar '\n' = true)]
  | cons c cs ih =>
    intro cur h
    have hc : lineBreakChar c = false := h c (List.mem_cons_self _ _)
    have hcr : c ≠ '\r' := by
      intro hcc
      rw [hcc] at hc
      exact absurd hc (by decide)
    cases cs with
    | nil =>
      simp [splitLinesAux, hcr, hc, (by decide : lineBreakChar '\n' = true)]
    | cons d cs' =>
      have hih := ih (cur ++ [c]) (fun x hx => h x (List.mem_cons_of_mem _ hx))
      simp only [List.cons_append] at hih ⊢
      simp only [splitLinesAux]
      rw [if_neg hcr, if_neg (by simp [hc])]
      rw [hih]
      simp [List.append_assoc]

lemma splitLines_single (l : List Char) (h : ∀ c ∈ l, lineBreakChar c = false) :
    splitLines (l ++ ['\n']) = [l] := by
  unfold splitLines
  simpa using splitLinesAux_noBreak l [] h

lemma lineBreak_of_pySpace_false {c : Char} (h : pySpace c = false) :
    lineBreakChar c = false := by
  cases hb : lineBreakChar c with
  | false => rfl
  | true =>
    exfalso
    unfold lineBreakChar at hb
    unfold pySpace at h
    simp only [Bool.or_eq_true, decide_eq_true_eq] at hb
    simp only [Bool.or_eq_false_iff, decide_eq_false_iff_not] at h
    omega

lemma listToStr_data (s : String) : listToStr s.data = s := by
  cases s
  rfl

/-- Claim C10 (amended): for nonempty image, platform and tag with the
claim's character restrictions (no whitespace anywhere; no `:` or `@` in
image and tag), parsing the directive written by
`create_dockerfile_with_tag` returns exactly the inputs and no digest. -/
theorem c10_amended (image platform tag : String)
    (hi : image.data ≠ []) (hic : ∀ c ∈ image.data, pySpace c = false ∧ c ≠ ':' ∧ c ≠ '@')
    (hp : platform.data ≠ []) (hpc : ∀ c ∈ platform.data, pySpace c = false)
    (ht : tag.data ≠ []) (htc : ∀ c ∈ tag.data, pySpace c = false ∧ c ≠ ':' ∧ c ≠ '@') :
    ManageImages.parse_dockerfile (create_dockerfile_with_tag image platform tag) =
      some ⟨platform, image, tag, none⟩ := by
  have htc' : ∀ c ∈ tag.data, pySpace c = false ∧ c ≠ '@' :=
    fun c hc => ⟨(htc c hc).1, (htc c hc).2.2⟩
  have h1 : ("FROM --platform=" : String).data =
      'F' :: 'R' :: 'O' :: 'M' :: ' ' :: platLit := by decide
  have hline : (create_dockerfile_with_tag image platform tag).data =
      ('F' :: 'R' :: 'O' :: 'M' :: ' ' ::
        (platLit ++ (platform.data ++ ' ' :: (image.data ++ ':' :: tag.data)))) ++ ['\n'] := by
    simp [create_dockerfile_with_tag, str_data_append, h1, platLit, List.append_assoc]
  have hnb : ∀ c ∈ ('F' :: 'R' :: 'O' :: 'M' :: ' ' ::
      (platLit ++ (platform.data ++ ' ' :: (image.data ++ ':' :: tag.data)))),
      lineBreakChar c = false := by
    intro c hc
    rcases List.mem_cons.mp hc with rfl | hc
    · decide
    rcases List.mem_cons.mp hc with rfl | hc
    · decide
    rcases List.mem_cons.mp hc with rfl | hc
    · decide
    rcases List.mem_cons.mp hc with rfl | hc
    · decide
    rcases List.mem_cons.mp hc with rfl | hc
    · decide
    rcases List.mem_append.mp hc with hc | hc
    · simp only [platLit, List.mem_cons] at hc
      rcases hc with rfl | rfl | rfl | rfl | rfl | rfl | rfl | rfl | rfl | rfl | rfl | hfalse
      all_goals first
        | decide
        | exact absurd hfalse (List.not_mem_nil _)
    · rcases List.mem_append.mp hc with hc | hc
      · exact lineBreak_of_pySpace_false (hpc c hc)
      · rcases List.mem_cons.mp hc with rfl | hc
        · decide
        rcases List.mem_append.mp hc with hc | hc
        · exact lineBreak_of_pySpace_false (hic c hc).1
        · rcases List.mem_cons.mp hc with rfl | hc
          · decide
          · exact lineBreak_of_pySpace_false (htc c hc).1
  have hm := matchFromLine_roundtrip platform.data image.data tag.data hp hpc hi hic ht htc'
  unfold ManageImages.parse_dockerfile parseRaw
  rw [hline, splitLines_single _ hnb]
  simp [List.findSome?, hm, listToStr_data]

/-- Witness for `c10_amended` at concrete inputs. -/
theorem c10_amended_witness :
    (∀ c ∈ ("busybox" : String).data, pySpace c = false ∧ c ≠ ':' ∧ c ≠ '@') ∧
    ManageImages.parse_dockerfile (create_dockerfile_with_tag "busybox" "linux/amd64" "1") =
      some ⟨"linux/amd64", "busybox", "1", none⟩ :=
  ⟨by decide, c10_amended "busybox" "linux/amd64" "1"
    (by decide) (by decide) (by decide) (by decide) (by decide) (by decide)⟩

/-- Claim C10 counterexample: the empty tag satisfies every character
condition of the claim (vacuously), yet parsing the written directive
yields image `busybox:` and tag `latest` — not the inputs. -/
theorem c10_counterexample :
    (∀ c ∈ ("" : String).data, pySpace c = false ∧ c ≠ ':' ∧ c ≠ '@') ∧
    ManageImages.parse_dockerfile (create_dockerfile_with_tag "busybox" "linux/amd64" "") =
      some ⟨"linux/amd64", "busybox:", "latest", none⟩ ∧
    ("busybox:" : String) ≠ "busybox" := by
  refine ⟨by decide, by decide, by decide⟩

/-! ## C2: orphan removal with upward pruning -/

namespace GenVersionDockerfiles

/-- generate-version-dockerfiles.py `get_existing_dockerfiles`. -/
def get_existing_dockerfiles (fs : FS) (base : FsPath) : List FsPath :=
  (fs.walkDockerfiles base).map Prod.fst

end GenVersionDockerfiles

lemma pfx_refl : ∀ (l : FsPath), pfx l l = true := by
  intro l
  induction l with
  | nil => rfl
  | cons a as ih => simp [pfx, ih]

lemma pfx_nil_right : ∀ (d : FsPath), pfx d [] = true → d = [] := by
  intro d h
  cases d with
  | nil => rfl
  | cons a as => simp [pfx] at h

lemma pfx_antisymm : ∀ (a b : FsPath), pfx a b = true → pfx b a = true → a = b := by
  intro a
  induction a with
  | nil =>
    intro b _ h2
    exact (pfx_nil_right b h2).symm
  | cons x xs ih =>
    intro b h1 h2
    cases b with
    | nil => simp [pfx] at h1
    | cons y ys =>
      simp only [pfx, Bool.and_eq_true, beq_iff_eq] at h1 h2
      rw [h1.1, ih ys h1.2 h2.2]

lemma pfx_append_right : ∀ (a b l : FsPath), pfx a b = true → pfx a (b ++ l) = true := by
  intro a
  induction a with
  | nil => intro b l _; rfl
  | cons x xs ih =>
    intro b l h
    cases b with
    | nil => simp [pfx] at h
    | cons y ys =>
      simp only [pfx, Bool.and_eq_true, beq_iff_eq] at h
      simp only [List.cons_append, pfx, Bool.and_eq_true, beq_iff_eq]
      exact ⟨h.1, ih ys l h.2⟩

lemma pfx_snoc : ∀ (d b : FsPath) (x : String),
    pfx d (b ++ [x]) = true → d = b ++ [x] ∨ pfx d b = true := by
  intro d
  induction d with
  | nil => intro b x _; right; rfl
  | cons c cs ih =>
    intro b x h
    cases b with
    | nil =>
      simp only [List.nil_append, pfx, Bool.and_eq_true, beq_iff_eq] at h
      left
      have := pfx_nil_right cs h.2
      simp [h.1, this]
    | cons y ys =>
      simp only [List.cons_append, pfx, Bool.and_eq_true, beq_iff_eq] at h
      rcases ih ys x h.2 with h2 | h2
      · left
        simp [h.1, h2]
      · right
        simp [pfx, h.1, h2]

lemma pfx_length_le : ∀ (a b : FsPath), pfx a b = true → a.length ≤ b.length := by
  intro a
  induction a with
  | nil => intro b _; simp
  | cons x xs ih =>
    intro b h
    cases b with
    | nil => simp [pfx] at h
    | cons y ys =>
      simp only [pfx, Bool.and_eq_true] at h
      simp only [List.length_cons]
      exact Nat.succ_le_succ (ih ys h.2)

lemma pfx_strict_dropLast : ∀ (d q : FsPath), pfx d q = true → d ≠ q →
    pfx d q.dropLast = true := by
  intro d q h hne
  have hq : q ≠ [] := by
    intro hc
    rw [hc] at h
    exact hne ((pfx_nil_right d h).trans hc.symm)
  obtain ⟨b, x, rfl⟩ : ∃ b x, q = b ++ [x] := by
    cases hq2 : q.reverse with
    | nil => exact absurd (by simpa using congrArg List.reverse hq2) hq
    | cons y ys =>
      refine ⟨ys.reverse, y, ?_⟩
      have := congrArg List.reverse hq2
      simpa using this
  rcases pfx_snoc d b x h with h2 | h2
  · exact absurd h2 hne
  · rw [List.dropLast_concat]
    exact h2

lemma lookupFile_filter_self : ∀ (l : List (FsPath × String)) (p : FsPath),
    lookupFile (l.filter (fun f => !(f.1 == p))) p = none := by
  intro l p
  induction l with
  | nil => rfl
  | cons f l ih =>
    by_cases hf : f.1 = p
    · simp [List.filter_cons, hf, ih]
    · simp [List.filter_cons, hf, lookupFile, ih]

lemma lookupFile_filter_ne : ∀ (l : List (FsPath × String)) (p q : FsPath), q ≠ p →
    lookupFile (l.filter (fun f => !(f.1 == p))) q = lookupFile l q := by
  intro l p q h
  induction l with
  | nil => rfl
  | cons f l ih =>
    by_cases hf : f.1 = p
    · have hfq : f.1 ≠ q := fun hc => h (hc.symm.trans hf)
      have hfil : List.filter (fun f => !(f.1 == p)) (f :: l) =
          List.filter (fun f => !(f.1 == p)) l := by
        simp [List.filter_cons, hf]
      rw [hfil, ih]
      simp [lookupFile, hfq]
    · have hfil : List.filter (fun f => !(f.1 == p)) (f :: l) =
          f :: List.filter (fun f => !(f.1 == p)) l := by
        simp [List.filter_cons, hf]
      rw [hfil]
      by_cases hfq : f.1 = q
      · simp [lookupFile, hfq]
      · simp [lookupFile, hfq, ih]

lemma fileContent_unlink (fs : FS) (p q : FsPath) :
    (fs.unlink p).fileContent q = if q = p then none else fs.fileContent q := by
  by_cases h : q = p
  · rw [if_pos h, h]
    exact lookupFile_filter_self fs.files p
  · rw [if_neg h]
    exact lookupFile_filter_ne fs.files p q h

lemma files_pruneUpRev (base : FsPath) : ∀ (rev : List String) (fs : FS),
    (GenVersionDockerfiles.pruneUpRev base rev fs).files = fs.files := by
  intro rev
  induction rev with
  | nil => intro fs; rfl
  | cons c revRest ih =>
    intro fs
    simp only [GenVersionDockerfiles.pruneUpRev]
    split
    · rfl
    · split
      · split
        · rw [ih]; rfl
        · rfl
      · rfl

lemma fileContent_removeOne (base : FsPath) (fs : FS) (p q : FsPath) :
    (GenVersionDockerfiles.removeOne base fs p).fileContent q =
      if q = p then none else fs.fileContent q := by
  unfold GenVersionDockerfiles.removeOne GenVersionDockerfiles.pruneUp
  unfold FS.fileContent
  rw [files_pruneUpRev]
  exact fileContent_unlink fs p q

lemma fileContent_fold_removeOne (base : FsPath) :
    ∀ (ops : List FsPath) (fs : FS) (q : FsPath),
    (ops.foldl (GenVersionDockerfiles.removeOne base) fs).fileContent q =
      if q ∈ ops then none else fs.fileContent q := by
  intro ops
  induction ops with
  | nil => intro fs q; simp
  | cons p ops ih =>
    intro fs q
    rw [List.foldl_cons, ih]
    by_cases h1 : q ∈ ops
    · simp [h1]
    · rw [if_neg h1, fileContent_removeOne]
      by_cases h2 : q = p
      · simp [h2]
      · rw [if_neg h2, if_neg (by simp [List.mem_cons, h1, h2])]

lemma spfx_iff (a b : FsPath) : spfx a b = true ↔ pfx a b = true ∧ a ≠ b := by
  simp [spfx]

lemma dirEmptyB_true_iff (fs : FS) (d : FsPath) :
    fs.dirEmptyB d = true ↔
      (∀ f ∈ fs.files, spfx d f.1 = false) ∧ (∀ e ∈ fs.dirs, spfx d e = false) := by
  simp [FS.dirEmptyB, List.all_eq_true, Bool.not_eq_true']

lemma dirEmptyB_false_iff (fs : FS) (d : FsPath) :
    fs.dirEmptyB d = false ↔
      (∃ f ∈ fs.files, spfx d f.1 = true) ∨ (∃ e ∈ fs.dirs, spfx d e = true) := by
  rw [← Bool.not_eq_true, dirEmptyB_true_iff]
  constructor
  · intro h
    rcases not_and_or.1 h with h | h
    · left
      push_neg at h
      rcases h with ⟨f, hf, hf2⟩
      exact ⟨f, hf, by simpa using hf2⟩
    · right
      push_neg at h
      rcases h with ⟨e, he, he2⟩
      exact ⟨e, he, by simpa using he2⟩
  · rintro (⟨f, hf, hf2⟩ | ⟨e, he, he2⟩) ⟨h1, h2⟩
    · rw [h1 f hf] at hf2; exact Bool.false_ne_true hf2
    · rw [h2 e he] at he2; exact Bool.false_ne_true he2

lemma dirEmptyB_false_of_file (fs : FS) (d : FsPath) (f : FsPath × String)
    (hf : f ∈ fs.files) (h : spfx d f.1 = true) : fs.dirEmptyB d = false :=
  (dirEmptyB_false_iff fs d).2 (Or.inl ⟨f, hf, h⟩)

lemma dirEmptyB_false_of_dir (fs : FS) (d e : FsPath)
    (he : e ∈ fs.dirs) (h : spfx d e = true) : fs.dirEmptyB d = false :=
  (dirEmptyB_false_iff fs d).2 (Or.inr ⟨e, he, h⟩)

lemma spfx_of_pfx_dropLast (d q : FsPath) (hq : pfx d q.dropLast = true) (hne : q ≠ []) :
    spfx d q = true := by
  rw [spfx_iff]
  constructor
  · exact pfx_trans d q.dropLast q hq (pfx_dropLast_self q)
  · intro hc
    have h1 := pfx_length_le d q.dropLast hq
    rw [List.length_dropLast, hc] at h1
    have h2 : 0 < q.length := List.length_pos.2 hne
    omega

lemma self_mem_pathPrefixes : ∀ (l : FsPath), l ≠ [] → l ∈ pathPrefixes l := by
  intro l
  induction l with
  | nil => intro h; exact absurd rfl h
  | cons a rest ih =>
    intro _
    cases rest with
    | nil => simp [pathPrefixes]
    | cons b bs =>
      have h2 : b :: bs ∈ pathPrefixes (b :: bs) := ih (List.cons_ne_nil b bs)
      show a :: b :: bs ∈ [a] :: (pathPrefixes (b :: bs)).map (a :: ·)
      exact List.mem_cons_of_mem _ (List.mem_map.2 ⟨b :: bs, h2, rfl⟩)

lemma lookupFile_mem : ∀ (l : List (FsPath × String)) (p : FsPath) (v : String),
    lookupFile l p = some v → (p, v) ∈ l := by
  intro l p v h
  induction l with
  | nil => simp [lookupFile] at h
  | cons f l ih =>
    by_cases hf : f.1 = p
    · simp only [lookupFile, if_pos hf] at h
      obtain ⟨a, b⟩ := f
      simp at hf h
      rw [← hf, ← h]
      exact List.mem_cons_self _ _
    · simp only [lookupFile, if_neg hf] at h
      exact List.mem_cons_of_mem f (ih h)

lemma lookupFile_isSome_of_mem : ∀ (l : List (FsPath × String)) (p : FsPath) (c : String),
    (p, c) ∈ l → (lookupFile l p).isSome = true := by
  intro l p c h
  induction l with
  | nil => simp at h
  | cons f l ih =>
    by_cases hf : f.1 = p
    · simp [lookupFile, hf]
    · rcases List.mem_cons.1 h with h1 | h1
      · exact absurd (by rw [← h1]) hf
      · simp only [lookupFile, if_neg hf]
        exact ih h1

lemma dirs_unlink (fs : FS) (p : FsPath) : (fs.unlink p).dirs = fs.dirs := rfl

lemma mem_dirs_pruneUpRev (base : FsPath) : ∀ (rev : List String) (fs : FS) (d : FsPath),
    d ∈ (GenVersionDockerfiles.pruneUpRev base rev fs).dirs → d ∈ fs.dirs := by
  intro rev
  induction rev with
  | nil => intro fs d h; exact h
  | cons c revRest ih =>
    intro fs d h
    simp only [GenVersionDockerfiles.pruneUpRev] at h
    split at h
    · exact h
    · split at h
      · split at h
        · have h2 := ih (fs.rmdir ((c :: revRest).reverse)) d h
          simp only [FS.rmdir, List.mem_filter] at h2
          exact h2.1
        · exact h
      · exact h

lemma pruneUpRev_removed (base : FsPath) : ∀ (rev : List String) (fs : FS) (d : FsPath),
    d ∈ fs.dirs → d ∉ (GenVersionDockerfiles.pruneUpRev base rev fs).dirs →
    pfx d rev.reverse = true := by
  intro rev
  induction rev with
  | nil => intro fs d h1 h2; exact absurd h1 h2
  | cons c revRest ih =>
    intro fs d h1 h2
    simp only [GenVersionDockerfiles.pruneUpRev] at h2
    split at h2
    · exact absurd h1 h2
    · split at h2
      · split at h2
        · by_cases hd : d = (c :: revRest).reverse
          · rw [hd]; exact pfx_refl _
          · have hmem : d ∈ (fs.rmdir ((c :: revRest).reverse)).dirs := by
              simp only [FS.rmdir, List.mem_filter, Bool.not_eq_true', beq_eq_false_iff_ne]
              exact ⟨h1, hd⟩
            have h3 := ih (fs.rmdir ((c :: revRest).reverse)) d hmem h2
            rw [List.reverse_cons]
            exact pfx_append_right d revRest.reverse [c] h3
        · exact absurd h1 h2
      · exact absurd h1 h2

lemma wf_unlink (fs : FS) (p : FsPath) (h : Wf fs) : Wf (fs.unlink p) := by
  obtain ⟨h1, h2, h3, h4, h5⟩ := h
  refine ⟨?_, h2, ?_, h4, h5⟩
  · exact List.Nodup.sublist (List.Sublist.map Prod.fst (List.filter_sublist fs.files)) h1
  · intro f hf x hx
    exact h3 f (List.mem_filter.1 hf).1 x hx

lemma wf_rmdir_empty (fs : FS) (d : FsPath) (h : Wf fs) (he : fs.dirEmptyB d = true) :
    Wf (fs.rmdir d) := by
  obtain ⟨h1, h2, h3, h4, h5⟩ := h
  obtain ⟨hef, hed⟩ := (dirEmptyB_true_iff fs d).1 he
  have hmem : ∀ x : FsPath, x ∈ (fs.rmdir d).dirs ↔ x ∈ fs.dirs ∧ x ≠ d := by
    intro x
    simp [FS.rmdir, List.mem_filter]
  refine ⟨h1, ?_, ?_, ?_, ?_⟩
  · exact List.Nodup.sublist (List.filter_sublist fs.dirs) h2
  · intro f hf x hx
    rw [hmem]
    refine ⟨h3 f hf x hx, ?_⟩
    intro hc
    have hp := mem_pathPrefixes_pfx _ x hx
    have hne : f.1 ≠ [] := by
      intro hnil
      rw [hnil] at hx
      simp [pathPrefixes] at hx
    rw [hc] at hp
    have h6 := spfx_of_pfx_dropLast d f.1 hp hne
    rw [hef f hf] at h6
    exact Bool.false_ne_true h6
  · intro e hee x hx
    rw [hmem] at hee ⊢
    refine ⟨h4 e hee.1 x hx, ?_⟩
    intro hc
    have hp := mem_pathPrefixes_pfx _ x hx
    have hne : e ≠ [] := by
      intro hnil
      rw [hnil] at hx
      simp [pathPrefixes] at hx
    rw [hc] at hp
    have h6 := spfx_of_pfx_dropLast d e hp hne
    rw [hed e hee.1] at h6
    exact Bool.false_ne_true h6
  · intro hc
    rw [hmem] at hc
    exact h5 hc.1

lemma wf_pruneUpRev (base : FsPath) : ∀ (rev : List String) (fs : FS), Wf fs →
    Wf (GenVersionDockerfiles.pruneUpRev base rev fs) := by
  intro rev
  induction rev with
  | nil => intro fs h; exact h
  | cons c revRest ih =>
    intro fs h
    simp only [GenVersionDockerfiles.pruneUpRev]
    split
    · exact h
    · split
      · split
        · rename_i hemp
          exact ih _ (wf_rmdir_empty fs _ h hemp)
        · exact h
      · exact h

lemma wf_removeOne (base : FsPath) (fs : FS) (p : FsPath) (h : Wf fs) :
    Wf (GenVersionDockerfiles.removeOne base fs p) :=
  wf_pruneUpRev base _ _ (wf_unlink fs p h)

/-- Core pruning postcondition: after the upward walk from a parent chain
that is present in the tree, no strict ancestor of the walk's start that
lies strictly below `base` survives as an empty directory. -/
lemma pruneA (base : FsPath) (hbase : base ≠ []) :
    ∀ (rev : List String) (fs : FS), Wf fs →
    (rev ≠ [] → rev.reverse ∈ fs.dirs) →
    ∀ d, pfx d rev.reverse = true → pfx base d = true → d ≠ base →
    d ∈ (GenVersionDockerfiles.pruneUpRev base rev fs).dirs →
    (GenVersionDockerfiles.pruneUpRev base rev fs).dirEmptyB d = false := by
  intro rev
  induction rev with
  | nil =>
    intro fs hwf hpar d hd hbd hdb hmem
    exfalso
    have hdnil : d = [] := pfx_nil_right d (by simpa using hd)
    rw [hdnil] at hbd
    exact hbase (pfx_nil_right base hbd)
  | cons c revRest ih =>
    intro fs hwf hpar d hd hbd hdb hmem
    have hpar' : (c :: revRest).reverse ∈ fs.dirs := hpar (List.cons_ne_nil c revRest)
    by_cases h1 : (c :: revRest).reverse = base
    · exfalso
      rw [h1] at hd
      exact hdb (pfx_antisymm d base hd hbd)
    · by_cases h3 : fs.dirEmptyB ((c :: revRest).reverse) = true
      · have hres : GenVersionDockerfiles.pruneUpRev base (c :: revRest) fs =
            GenVersionDockerfiles.pruneUpRev base revRest
              (fs.rmdir ((c :: revRest).reverse)) := by
          simp only [GenVersionDockerfiles.pruneUpRev]
          rw [if_neg h1, if_pos hpar', if_pos h3]
        rw [hres] at hmem ⊢
        by_cases hdp : d = (c :: revRest).reverse
        · exfalso
          have h2 := mem_dirs_pruneUpRev base revRest _ d hmem
          rw [hdp] at h2
          simp [FS.rmdir, List.mem_filter] at h2
        · have hdl : pfx d revRest.reverse = true := by
            have hrc : (c :: revRest).reverse = revRest.reverse ++ [c] :=
              List.reverse_cons c revRest
            rw [hrc] at hd hdp
            rcases pfx_snoc d revRest.reverse c hd with h | h
            · exact absurd h hdp
            · exact h
          refine ih (fs.rmdir ((c :: revRest).reverse))
            (wf_rmdir_empty fs _ hwf h3) ?_ d hdl hbd hdb hmem
          intro hrne
          have hdrop : ((c :: revRest).reverse).dropLast = revRest.reverse := by
            rw [List.reverse_cons]
            exact List.dropLast_concat
          have hself : revRest.reverse ∈ pathPrefixes (((c :: revRest).reverse).dropLast) := by
            rw [hdrop]
            exact self_mem_pathPrefixes _ (by simpa using hrne)
          have hin : revRest.reverse ∈ fs.dirs :=
            hwf.2.2.2.1 ((c :: revRest).reverse) hpar' revRest.reverse hself
          have hneq : revRest.reverse ≠ (c :: revRest).reverse := by
            intro hc2
            have hl := congrArg List.length hc2
            simp at hl
          simp only [FS.rmdir, List.mem_filter, Bool.not_eq_true', beq_eq_false_iff_ne]
          exact ⟨hin, hneq⟩
      · have hres : GenVersionDockerfiles.pruneUpRev base (c :: revRest) fs = fs := by
          simp only [GenVersionDockerfiles.pruneUpRev]
          rw [if_neg h1, if_pos hpar', if_neg h3]
        rw [hres] at hmem ⊢
        by_cases hdp : d = (c :: revRest).reverse
        · rw [hdp]
          exact Bool.eq_false_iff.mpr h3
        · exact dirEmptyB_false_of_dir fs d _ hpar' ((spfx_iff _ _).2 ⟨hd, hdp⟩)

/-- One orphan removal preserves the no-empty-ancestor invariant and
establishes it for the newly processed orphan. -/
lemma removeOne_inv (base : FsPath) (hbase : base ≠ []) (fs : FS) (q : FsPath)
    (hwf : Wf fs) (hq : fs.fileExistsB q = true) (L : List FsPath)
    (hinv : ∀ d ∈ fs.dirs, pfx base d = true → d ≠ base →
      (∃ p ∈ L, pfx d p = true ∧ d ≠ p) → fs.dirEmptyB d = false) :
    ∀ d ∈ (GenVersionDockerfiles.removeOne base fs q).dirs, pfx base d = true → d ≠ base →
      (∃ p ∈ L ++ [q], pfx d p = true ∧ d ≠ p) →
      (GenVersionDockerfiles.removeOne base fs q).dirEmptyB d = false := by
  intro d hd hbd hdb hex
  obtain ⟨p, hpL, hdp, hdnep⟩ := hex
  by_cases hcase : pfx d q.dropLast = true
  · have hun : GenVersionDockerfiles.removeOne base fs q =
        GenVersionDockerfiles.pruneUpRev base q.dropLast.reverse (fs.unlink q) := rfl
    rw [hun] at hd ⊢
    refine pruneA base hbase q.dropLast.reverse (fs.unlink q) (wf_unlink fs q hwf)
      ?_ d ?_ hbd hdb hd
    · intro hrne
      rw [List.reverse_reverse]
      show q.dropLast ∈ fs.dirs
      obtain ⟨cq, hcq⟩ : ∃ c, (q, c) ∈ fs.files := by
        unfold FS.fileExistsB FS.fileContent at hq
        cases hl : lookupFile fs.files q with
        | none => rw [hl] at hq; simp at hq
        | some v => exact ⟨v, lookupFile_mem fs.files q v hl⟩
      exact hwf.2.2.1 (q, cq) hcq q.dropLast
        (self_mem_pathPrefixes _ (by simpa using hrne))
    · rw [List.reverse_reverse]
      exact hcase
  · have hpq : p ≠ q := by
      intro hc
      rw [hc] at hdp hdnep
      exact hcase (pfx_strict_dropLast d q hdp hdnep)
    have hpL' : p ∈ L := by
      rcases List.mem_append.1 hpL with h | h
      · exact h
      · simp at h
        exact absurd h hpq
    have hdfs : d ∈ fs.dirs :=
      mem_dirs_pruneUpRev base q.dropLast.reverse (fs.unlink q) d hd
    have hfalse := hinv d hdfs hbd hdb ⟨p, hpL', hdp, hdnep⟩
    rcases (dirEmptyB_false_iff fs d).1 hfalse with ⟨f, hf, hsp⟩ | ⟨e, he, hsp⟩
    · have hfq : f.1 ≠ q := by
        intro hc
        rw [hc, spfx_iff] at hsp
        exact hcase (pfx_strict_dropLast d q hsp.1 hsp.2)
      have hf' : f ∈ (GenVersionDockerfiles.removeOne base fs q).files := by
        show f ∈ (GenVersionDockerfiles.pruneUpRev base q.dropLast.reverse
          (fs.unlink q)).files
        rw [files_pruneUpRev]
        simp only [FS.unlink, List.mem_filter, Bool.not_eq_true', beq_eq_false_iff_ne]
        exact ⟨hf, hfq⟩
      exact dirEmptyB_false_of_file _ d f hf' hsp
    · by_cases hefs : e ∈ (GenVersionDockerfiles.removeOne base fs q).dirs
      · exact dirEmptyB_false_of_dir _ d e hefs hsp
      · exfalso
        have hrem := pruneUpRev_removed base q.dropLast.reverse (fs.unlink q) e he hefs
        rw [List.reverse_reverse] at hrem
        rw [spfx_iff] at hsp
        exact hcase (pfx_trans d e q.dropLast hsp.1 hrem)

/-- Fold form of the invariant over the whole orphan list. -/
lemma fold_removeOne_inv (base : FsPath) (hbase : base ≠ []) :
    ∀ (ops : List FsPath) (fs : FS) (L : List FsPath),
    Wf fs → ops.Nodup →
    (∀ p ∈ ops, fs.fileExistsB p = true) →
    (∀ d ∈ fs.dirs, pfx base d = true → d ≠ base →
      (∃ p ∈ L, pfx d p = true ∧ d ≠ p) → fs.dirEmptyB d = false) →
    ∀ d ∈ (ops.foldl (GenVersionDockerfiles.removeOne base) fs).dirs,
      pfx base d = true → d ≠ base →
      (∃ p ∈ L ++ ops, pfx d p = true ∧ d ≠ p) →
      (ops.foldl (GenVersionDockerfiles.removeOne base) fs).dirEmptyB d = false := by
  intro ops
  induction ops with
  | nil =>
    intro fs L _ _ _ hinv d hd hbd hdb hex
    simp only [List.foldl_nil] at hd ⊢
    rw [List.append_nil] at hex
    exact hinv d hd hbd hdb hex
  | cons q ops ih =>
    intro fs L hwf hnd hex hinv d hd hbd hdb hex2
    rw [List.foldl_cons] at hd ⊢
    have hq : fs.fileExistsB q = true := hex q (List.mem_cons_self q ops)
    have hinv' := removeOne_inv base hbase fs q hwf hq L hinv
    have hwf' : Wf (GenVersionDockerfiles.removeOne base fs q) := wf_removeOne base fs q hwf
    have hex' : ∀ p ∈ ops, (GenVersionDockerfiles.removeOne base fs q).fileExistsB p = true := by
      intro p hp
      have hpq : p ≠ q := by
        intro hc
        rw [hc] at hp
        exact (List.nodup_cons.1 hnd).1 hp
      unfold FS.fileExistsB
      rw [fileContent_removeOne, if_neg hpq]
      exact hex p (List.mem_cons_of_mem q hp)
    refine ih (GenVersionDockerfiles.removeOne base fs q) (L ++ [q]) hwf'
      (List.nodup_cons.1 hnd).2 hex' hinv' d hd hbd hdb ?_
    obtain ⟨p, hp, h2⟩ := hex2
    refine ⟨p, ?_, h2⟩
    rw [List.append_assoc]
    exact hp

lemma nodup_existing (fs : FS) (hwf : Wf fs) (base : FsPath) :
    (GenVersionDockerfiles.get_existing_dockerfiles fs base).Nodup := by
  unfold GenVersionDockerfiles.get_existing_dockerfiles FS.walkDockerfiles
  exact List.Nodup.sublist (List.Sublist.map Prod.fst (List.filter_sublist fs.files)) hwf.1

lemma exists_of_mem_existing (fs : FS) (base : FsPath) (p : FsPath)
    (h : p ∈ GenVersionDockerfiles.get_existing_dockerfiles fs base) :
    fs.fileExistsB p = true := by
  unfold GenVersionDockerfiles.get_existing_dockerfiles FS.walkDockerfiles at h
  obtain ⟨f, hf, hfp⟩ := List.mem_map.1 h
  have hmem : f ∈ fs.files := (List.mem_filter.1 hf).1
  unfold FS.fileExistsB FS.fileContent
  obtain ⟨a, b⟩ := f
  cases hfp
  exact lookupFile_isSome_of_mem fs.files _ b hmem

/-- C2 (corrected): the deletion behaviour belongs to the legacy
`remove_orphaned_dockerfiles`, not to `generate-versions`.  For it, on a
well-formed tree: every existing-but-unexpected Dockerfile is deleted,
every other file keeps its content, and no directory strictly between the
versions root and a removed orphan survives empty. -/
theorem c2_amended (images : List ImageSpec) (fs : FS) (hwf : Wf fs)
    (expected existing : List FsPath) (out : FS × List FsPath)
    (hexp : expected = GenVersionDockerfiles.get_expected_version_paths images)
    (hexi : existing = GenVersionDockerfiles.get_existing_dockerfiles fs versionsRoot)
    (hout : out = GenVersionDockerfiles.remove_orphaned_dockerfiles expected existing
      versionsRoot fs) :
    (∀ p ∈ existing, p ∉ expected → out.1.fileContent p = none) ∧
    (∀ p c, (p ∈ expected ∨ p ∉ existing) → fs.fileContent p = some c →
      out.1.fileContent p = some c) ∧
    (∀ d ∈ out.1.dirs, pfx versionsRoot d = true → d ≠ versionsRoot →
      (∃ p ∈ existing, p ∉ expected ∧ pfx d p = true ∧ d ≠ p) →
      out.1.dirEmptyB d = false) := by
  subst hexp hexi hout
  set E := GenVersionDockerfiles.get_expected_version_paths images with hE
  set X := GenVersionDockerfiles.get_existing_dockerfiles fs versionsRoot with hX
  have hfst : (GenVersionDockerfiles.remove_orphaned_dockerfiles E X versionsRoot fs).1 =
      (X.filter (fun p => !E.contains p)).foldl
        (GenVersionDockerfiles.removeOne versionsRoot) fs := rfl
  set O := X.filter (fun p => !E.contains p) with hO
  have hmemO : ∀ p, p ∈ O ↔ p ∈ X ∧ p ∉ E := by
    intro p
    rw [hO]
    simp [List.mem_filter]
  refine ⟨?_, ?_, ?_⟩
  · intro p hpX hpE
    rw [hfst, fileContent_fold_removeOne, if_pos ((hmemO p).2 ⟨hpX, hpE⟩)]
  · intro p c hp hc
    rw [hfst, fileContent_fold_removeOne, if_neg, hc]
    intro hpO
    rcases hp with h | h
    · exact ((hmemO p).1 hpO).2 h
    · exact h ((hmemO p).1 hpO).1
  · intro d hd hbd hdb hex
    rw [hfst] at hd ⊢
    refine fold_removeOne_inv versionsRoot (by simp [versionsRoot]) O fs [] hwf
      ?_ ?_ ?_ d hd hbd hdb ?_
    · exact List.Nodup.sublist (List.filter_sublist X) (nodup_existing fs hwf versionsRoot)
    · intro p hp
      exact exists_of_mem_existing fs versionsRoot p ((hmemO p).1 hp).1
    · intro d' _ _ _ hex'
      obtain ⟨p, hp, _⟩ := hex'
      simp at hp
    · obtain ⟨p, hpX, hpE, h2⟩ := hex
      exact ⟨p, (hmemO p).2 ⟨hpX, hpE⟩, h2⟩

def catC2 : Option (List ImageSpec) := some [⟨"busybox", ["linux/amd64"], ["1"], [], []⟩]

def orphanC2 : FsPath :=
  ["nix", "_dockerfiles", "versions", "major", "oldimg", "linux_amd64", "Dockerfile"]

def fsC2 : FS :=
  ⟨[(["images.json"], "[]"),
    (orphanC2, "FROM --platform=linux/amd64 oldimg:1\n")],
   [["nix"], ["nix", "_dockerfiles"], ["nix", "_dockerfiles", "versions"],
    ["nix", "_dockerfiles", "versions", "major"],
    ["nix", "_dockerfiles", "versions", "major", "oldimg"],
    ["nix", "_dockerfiles", "versions", "major", "oldimg", "linux_amd64"]]⟩

/-- C2 counterexample: `generate-versions` (manage-images.py) never deletes:
an existing version Dockerfile that is not among the expected paths of the
catalog survives the run with its content intact. -/
theorem c2_counterexample :
    orphanC2 ∈ GenVersionDockerfiles.get_existing_dockerfiles fsC2 versionsRoot ∧
    orphanC2 ∉ GenVersionDockerfiles.get_expected_version_paths
      [⟨"busybox", ["linux/amd64"], ["1"], [], []⟩] ∧
    (ManageImages.generate_versions catC2 fsC2).fs.fileContent orphanC2 =
      some "FROM --platform=linux/amd64 oldimg:1\n" := by decide

theorem c2_amended_witness :
    Wf fsC2 ∧
    (GenVersionDockerfiles.remove_orphaned_dockerfiles
      (GenVersionDockerfiles.get_expected_version_paths
        [⟨"busybox", ["linux/amd64"], ["1"], [], []⟩])
      (GenVersionDockerfiles.get_existing_dockerfiles fsC2 versionsRoot)
      versionsRoot fsC2).1.fileContent orphanC2 = none :=
  ⟨by decide,
   (c2_amended [⟨"busybox", ["linux/amd64"], ["1"], [], []⟩] fsC2 (by decide)
      _ _ _ rfl rfl rfl).1 orphanC2 (by decide) (by decide)⟩

/-! ## C3: orphaned-pin removal in harvest-tags.py -/

lemma pfx_append_self (a l : FsPath) : pfx a (a ++ l) = true :=
  pfx_append_right a a l (pfx_refl a)

lemma pfx_take : ∀ (k : Nat) (x : FsPath), pfx (x.take k) x = true := by
  intro k
  induction k with
  | zero => intro x; rfl
  | succ n ih =>
    intro x
    cases x with
    | nil => rfl
    | cons a xs => simp [List.take, pfx, ih]

lemma pfx_pfx_le : ∀ (x a b : FsPath), pfx a x = true → pfx b x = true →
    a.length ≤ b.length → pfx a b = true := by
  intro x
  induction x with
  | nil =>
    intro a b ha _ _
    rw [pfx_nil_right a ha]
    rfl
  | cons v xs ih =>
    intro a b ha hb hl
    cases a with
    | nil => rfl
    | cons p as =>
      cases b with
      | nil => simp at hl
      | cons q bs =>
        simp only [pfx, Bool.and_eq_true, beq_iff_eq] at ha hb ⊢
        exact ⟨ha.1.trans hb.1.symm, ih as bs ha.2 hb.2 (by simpa using hl)⟩

lemma pfx_same_length_eq (x a b : FsPath) (ha : pfx a x = true) (hb : pfx b x = true)
    (hl : a.length = b.length) : a = b :=
  pfx_antisymm a b (pfx_pfx_le x a b ha hb (le_of_eq hl))
    (pfx_pfx_le x b a hb ha (le_of_eq hl.symm))

lemma mem_pathPrefixes_of_pfx : ∀ (c y : FsPath), pfx c y = true → c ≠ [] →
    c ∈ pathPrefixes y := by
  intro c
  induction c with
  | nil => intro y _ h; exact absurd rfl h
  | cons a cs ih =>
    intro y h _
    cases y with
    | nil => simp [pfx] at h
    | cons b ys =>
      simp only [pfx, Bool.and_eq_true, beq_iff_eq] at h
      cases cs with
      | nil =>
        rw [h.1]
        exact List.mem_cons_self _ _
      | cons c2 cs2 =>
        have hm : c2 :: cs2 ∈ pathPrefixes ys := ih ys h.2 (List.cons_ne_nil c2 cs2)
        rw [h.1]
        exact List.mem_cons_of_mem _ (List.mem_map.2 ⟨c2 :: cs2, hm, rfl⟩)

lemma mem_childDirs (fs : FS) (d e : FsPath) :
    e ∈ fs.childDirs d ↔ e ∈ fs.dirs ∧ spfx d e = true ∧ e.length = d.length + 1 := by
  simp [FS.childDirs, List.mem_filter]

lemma lookupFile_none_of (l : List (FsPath × String)) (p : FsPath)
    (h : ∀ x ∈ l, x.1 ≠ p) : lookupFile l p = none := by
  induction l with
  | nil => rfl
  | cons f l ih =>
    simp only [lookupFile, if_neg (h f (List.mem_cons_self f l))]
    exact ih (fun x hx => h x (List.mem_cons_of_mem f hx))

/-- State shrinkage: every operation of `remove_orphaned_pins` only removes
directories and files. -/
def FsLe (g f : FS) : Prop :=
  (∀ e ∈ g.dirs, e ∈ f.dirs) ∧ (∀ x ∈ g.files, x ∈ f.files)

lemma fsLe_refl (f : FS) : FsLe f f := ⟨fun _ h => h, fun _ h => h⟩

lemma fsLe_trans {a b c : FS} (h1 : FsLe a b) (h2 : FsLe b c) : FsLe a c :=
  ⟨fun e he => h2.1 e (h1.1 e he), fun x hx => h2.2 x (h1.2 x hx)⟩

lemma fsLe_rmtree (fs : FS) (t : FsPath) : FsLe (fs.rmtree t) fs :=
  ⟨fun e he => (List.mem_filter.1 he).1, fun x hx => (List.mem_filter.1 hx).1⟩

lemma fsLe_rmdir (fs : FS) (d : FsPath) : FsLe (fs.rmdir d) fs :=
  ⟨fun e he => (List.mem_filter.1 he).1, fun x hx => hx⟩

lemma fsLe_processTagDir (valid : List FsPath) (acc : FS × List FsPath) (t : FsPath) :
    FsLe (HarvestTags.processTagDir valid acc t).1 acc.1 := by
  unfold HarvestTags.processTagDir
  split
  · exact fsLe_refl _
  · exact fsLe_rmtree _ _

lemma fsLe_fold_tag (valid : List FsPath) :
    ∀ (ts : List FsPath) (acc : FS × List FsPath),
    FsLe ((ts.foldl (HarvestTags.processTagDir valid) acc).1) acc.1 := by
  intro ts
  induction ts with
  | nil => intro acc; exact fsLe_refl _
  | cons t ts ih =>
    intro acc
    rw [List.foldl_cons]
    exact fsLe_trans (ih _) (fsLe_processTagDir valid acc t)

lemma fsLe_processPlatformDir (valid : List FsPath) (acc : FS × List FsPath) (pd : FsPath) :
    FsLe (HarvestTags.processPlatformDir valid acc pd).1 acc.1 := by
  simp only [HarvestTags.processPlatformDir]
  split
  · exact fsLe_trans (fsLe_rmdir _ _) (fsLe_fold_tag valid _ acc)
  · exact fsLe_fold_tag valid _ acc

lemma fsLe_fold_platform (valid : List FsPath) :
    ∀ (pds : List FsPath) (acc : FS × List FsPath),
    FsLe ((pds.foldl (HarvestTags.processPlatformDir valid) acc).1) acc.1 := by
  intro pds
  induction pds with
  | nil => intro acc; exact fsLe_refl _
  | cons pd pds ih =>
    intro acc
    rw [List.foldl_cons]
    exact fsLe_trans (ih _) (fsLe_processPlatformDir valid acc pd)

lemma fsLe_processImageDir (valid : List FsPath) (acc : FS × List FsPath) (idir : FsPath) :
    FsLe (HarvestTags.processImageDir valid acc idir).1 acc.1 := by
  simp only [HarvestTags.processImageDir]
  split
  · exact fsLe_trans (fsLe_rmdir _ _) (fsLe_fold_platform valid _ acc)
  · exact fsLe_fold_platform valid _ acc

lemma fsLe_fold_image (valid : List FsPath) :
    ∀ (is : List FsPath) (acc : FS × List FsPath),
    FsLe ((is.foldl (HarvestTags.processImageDir valid) acc).1) acc.1 := by
  intro is
  induction is with
  | nil => intro acc; exact fsLe_refl _
  | cons i is ih =>
    intro acc
    rw [List.foldl_cons]
    exact fsLe_trans (ih _) (fsLe_processImageDir valid acc i)

/-- Everything at or below `t` has been removed. -/
def subtreeGone (t : FsPath) (g : FS) : Prop :=
  (∀ e ∈ g.dirs, pfx t e = false) ∧ (∀ x ∈ g.files, pfx t x.1 = false)

lemma subtreeGone_mono {t : FsPath} {g f : FS} (hle : FsLe g f)
    (h : subtreeGone t f) : subtreeGone t g :=
  ⟨fun e he => h.1 e (hle.1 e he), fun x hx => h.2 x (hle.2 x hx)⟩

lemma subtreeGone_rmtree (fs : FS) (t : FsPath) : subtreeGone t (fs.rmtree t) := by
  constructor
  · intro e he
    have h2 := (List.mem_filter.1 he).2
    simpa using h2
  · intro x hx
    have h2 := (List.mem_filter.1 hx).2
    simpa using h2

lemma fold_tag_gone (valid : List FsPath) :
    ∀ (ts : List FsPath) (acc : FS × List FsPath) (t : FsPath),
    t ∈ ts → valid.contains t = false →
    subtreeGone t ((ts.foldl (HarvestTags.processTagDir valid) acc).1) := by
  intro ts
  induction ts with
  | nil => intro acc t h _; simp at h
  | cons t' ts ih =>
    intro acc t ht hnv
    rw [List.foldl_cons]
    rcases List.mem_cons.1 ht with h | h
    · subst h
      have hstep : HarvestTags.processTagDir valid acc t = (acc.1.rmtree t, acc.2 ++ [t]) := by
        have hm : t ∉ valid := fun hmem => by
          rw [(contains_iff valid t).2 hmem] at hnv
          cases hnv
        have hc : ¬(valid.contains t = true) := by simpa using hm
        unfold HarvestTags.processTagDir
        rw [if_neg hc]
      rw [hstep]
      exact subtreeGone_mono (fsLe_fold_tag valid ts _) (subtreeGone_rmtree acc.1 t)
    · exact ih _ t h hnv

lemma frame_processTagDir (valid : List FsPath) (acc : FS × List FsPath) (t e : FsPath)
    (he : e ∈ acc.1.dirs) (hne : pfx t e = false) :
    e ∈ (HarvestTags.processTagDir valid acc t).1.dirs := by
  unfold HarvestTags.processTagDir
  split
  · exact he
  · simp only [FS.rmtree, List.mem_filter]
    exact ⟨he, by simp [hne]⟩

lemma frame_fold_tag (valid : List FsPath) :
    ∀ (ts : List FsPath) (acc : FS × List FsPath) (e : FsPath),
    e ∈ acc.1.dirs → (∀ t ∈ ts, pfx t e = false) →
    e ∈ ((ts.foldl (HarvestTags.processTagDir valid) acc).1).dirs := by
  intro ts
  induction ts with
  | nil => intro acc e he _; exact he
  | cons t ts ih =>
    intro acc e he hfr
    rw [List.foldl_cons]
    exact ih _ e (frame_processTagDir valid acc t e he (hfr t (List.mem_cons_self t ts)))
      (fun x hx => hfr x (List.mem_cons_of_mem t hx))

lemma frame_processPlatformDir (valid : List FsPath) (acc : FS × List FsPath) (pd e : FsPath)
    (he : e ∈ acc.1.dirs) (hne : pfx pd e = false) :
    e ∈ (HarvestTags.processPlatformDir valid acc pd).1.dirs := by
  have hfr : ∀ t ∈ acc.1.childDirs pd, pfx t e = false := by
    intro t htm
    cases hpt : pfx t e
    · rfl
    · exfalso
      have hsp := ((mem_childDirs acc.1 pd t).1 htm).2.1
      have hpdt : pfx pd t = true := ((spfx_iff pd t).1 hsp).1
      exact absurd hne (by simp [pfx_trans pd t e hpdt hpt])
  have h1 : e ∈ ((acc.1.childDirs pd).foldl (HarvestTags.processTagDir valid) acc).1.dirs :=
    frame_fold_tag valid _ acc e he hfr
  simp only [HarvestTags.processPlatformDir]
  split
  · have hepd : e ≠ pd := by
      intro hc
      rw [hc] at hne
      rw [pfx_refl pd] at hne
      exact absurd hne (by decide)
    simp only [FS.rmdir, List.mem_filter]
    exact ⟨h1, by simp [hepd]⟩
  · exact h1

lemma frame_fold_platform (valid : List FsPath) :
    ∀ (pds : List FsPath) (acc : FS × List FsPath) (e : FsPath),
    e ∈ acc.1.dirs → (∀ pd ∈ pds, pfx pd e = false) →
    e ∈ ((pds.foldl (HarvestTags.processPlatformDir valid) acc).1).dirs := by
  intro pds
  induction pds with
  | nil => intro acc e he _; exact he
  | cons pd pds ih =>
    intro acc e he hfr
    rw [List.foldl_cons]
    exact ih _ e (frame_processPlatformDir valid acc pd e he (hfr pd (List.mem_cons_self pd pds)))
      (fun x hx => hfr x (List.mem_cons_of_mem pd hx))

lemma frame_processImageDir (valid : List FsPath) (acc : FS × List FsPath) (idir e : FsPath)
    (he : e ∈ acc.1.dirs) (hne : pfx idir e = false) :
    e ∈ (HarvestTags.processImageDir valid acc idir).1.dirs := by
  have hfr : ∀ pd ∈ acc.1.childDirs idir, pfx pd e = false := by
    intro pd hpm
    cases hpt : pfx pd e
    · rfl
    · exfalso
      have hsp := ((mem_childDirs acc.1 idir pd).1 hpm).2.1
      have hpdt : pfx idir pd = true := ((spfx_iff idir pd).1 hsp).1
      exact absurd hne (by simp [pfx_trans idir pd e hpdt hpt])
  have h1 : e ∈ ((acc.1.childDirs idir).foldl (HarvestTags.processPlatformDir valid) acc).1.dirs :=
    frame_fold_platform valid _ acc e he hfr
  simp only [HarvestTags.processImageDir]
  split
  · have hepd : e ≠ idir := by
      intro hc
      rw [hc] at hne
      rw [pfx_refl idir] at hne
      exact absurd hne (by decide)
    simp only [FS.rmdir, List.mem_filter]
    exact ⟨h1, by simp [hepd]⟩
  · exact h1

lemma frame_fold_image (valid : List FsPath) :
    ∀ (is : List FsPath) (acc : FS × List FsPath) (e : FsPath),
    e ∈ acc.1.dirs → (∀ i ∈ is, pfx i e = false) →
    e ∈ ((is.foldl (HarvestTags.processImageDir valid) acc).1).dirs := by
  intro is
  induction is with
  | nil => intro acc e he _; exact he
  | cons i is ih =>
    intro acc e he hfr
    rw [List.foldl_cons]
    exact ih _ e (frame_processImageDir valid acc i e he (hfr i (List.mem_cons_self i is)))
      (fun x hx => hfr x (List.mem_cons_of_mem i hx))

lemma wf_rmtree (fs : FS) (t : FsPath) (h : Wf fs) : Wf (fs.rmtree t) := by
  obtain ⟨h1, h2, h3, h4, h5⟩ := h
  have hfd : ∀ x : FsPath, x ∈ (fs.rmtree t).dirs ↔ x ∈ fs.dirs ∧ pfx t x = false := by
    intro x
    simp [FS.rmtree, List.mem_filter]
  have hff : ∀ x : FsPath × String,
      x ∈ (fs.rmtree t).files ↔ x ∈ fs.files ∧ pfx t x.1 = false := by
    intro x
    simp [FS.rmtree, List.mem_filter]
  refine ⟨?_, ?_, ?_, ?_, ?_⟩
  · exact List.Nodup.sublist (List.Sublist.map Prod.fst (List.filter_sublist fs.files)) h1
  · exact List.Nodup.sublist (List.filter_sublist fs.dirs) h2
  · intro f hf x hx
    rw [hff] at hf
    rw [hfd]
    refine ⟨h3 f hf.1 x hx, ?_⟩
    cases htx : pfx t x
    · rfl
    · exfalso
      have hpx := mem_pathPrefixes_pfx _ x hx
      have h6 : pfx t f.1 = true :=
        pfx_trans t x f.1 htx (pfx_trans x f.1.dropLast f.1 hpx (pfx_dropLast_self f.1))
      exact absurd hf.2 (by simp [h6])
  · intro e hee x hx
    rw [hfd] at hee ⊢
    refine ⟨h4 e hee.1 x hx, ?_⟩
    cases htx : pfx t x
    · rfl
    · exfalso
      have hpx := mem_pathPrefixes_pfx _ x hx
      have h6 : pfx t e = true :=
        pfx_trans t x e htx (pfx_trans x e.dropLast e hpx (pfx_dropLast_self e))
      exact absurd hee.2 (by simp [h6])
  · intro hc
    rw [hfd] at hc
    exact h5 hc.1

lemma wf_processTagDir (valid : List FsPath) (acc : FS × List FsPath) (t : FsPath)
    (h : Wf acc.1) : Wf (HarvestTags.processTagDir valid acc t).1 := by
  unfold HarvestTags.processTagDir
  split
  · exact h
  · exact wf_rmtree acc.1 t h

lemma wf_fold_tag (valid : List FsPath) :
    ∀ (ts : List FsPath) (acc : FS × List FsPath), Wf acc.1 →
    Wf ((ts.foldl (HarvestTags.processTagDir valid) acc).1) := by
  intro ts
  induction ts with
  | nil => intro acc h; exact h
  | cons t ts ih =>
    intro acc h
    rw [List.foldl_cons]
    exact ih _ (wf_processTagDir valid acc t h)

lemma wf_processPlatformDir (valid : List FsPath) (acc : FS × List FsPath) (pd : FsPath)
    (h : Wf acc.1) : Wf (HarvestTags.processPlatformDir valid acc pd).1 := by
  simp only [HarvestTags.processPlatformDir]
  split
  · rename_i hcond
    rw [Bool.and_eq_true] at hcond
    exact wf_rmdir_empty _ pd (wf_fold_tag valid _ acc h) hcond.2
  · exact wf_fold_tag valid _ acc h

lemma wf_fold_platform (valid : List FsPath) :
    ∀ (pds : List FsPath) (acc : FS × List FsPath), Wf acc.1 →
    Wf ((pds.foldl (HarvestTags.processPlatformDir valid) acc).1) := by
  intro pds
  induction pds with
  | nil => intro acc h; exact h
  | cons pd pds ih =>
    intro acc h
    rw [List.foldl_cons]
    exact ih _ (wf_processPlatformDir valid acc pd h)

lemma wf_processImageDir (valid : List FsPath) (acc : FS × List FsPath) (idir : FsPath)
    (h : Wf acc.1) : Wf (HarvestTags.processImageDir valid acc idir).1 := by
  simp only [HarvestTags.processImageDir]
  split
  · rename_i hcond
    rw [Bool.and_eq_true] at hcond
    exact wf_rmdir_empty _ idir (wf_fold_platform valid _ acc h) hcond.2
  · exact wf_fold_platform valid _ acc h

lemma platform_core_a (valid : List FsPath) (acc : FS × List FsPath) (pd t : FsPath)
    (ht : t ∈ acc.1.dirs) (hsp : spfx pd t = true) (hlen : t.length = pd.length + 1)
    (hnv : valid.contains t = false) :
    subtreeGone t ((HarvestTags.processPlatformDir valid acc pd).1) := by
  have hts : t ∈ acc.1.childDirs pd := (mem_childDirs _ _ _).2 ⟨ht, hsp, hlen⟩
  have hgone := fold_tag_gone valid (acc.1.childDirs pd) acc t hts hnv
  simp only [HarvestTags.processPlatformDir]
  split
  · exact subtreeGone_mono (fsLe_rmdir _ _) hgone
  · exact hgone

lemma fold_platform_a (valid : List FsPath) (pd t : FsPath)
    (hsp : spfx pd t = true) (hlen : t.length = pd.length + 1)
    (hnv : valid.contains t = false) :
    ∀ (pds : List FsPath) (acc : FS × List FsPath),
    pd ∈ pds → (∀ pd' ∈ pds, pd' ≠ pd → pfx pd' t = false) →
    t ∈ acc.1.dirs →
    subtreeGone t ((pds.foldl (HarvestTags.processPlatformDir valid) acc).1) := by
  intro pds
  induction pds with
  | nil => intro acc h; simp at h
  | cons pd' pds ih =>
    intro acc hmem hfr ht
    rw [List.foldl_cons]
    by_cases he : pd' = pd
    · subst he
      exact subtreeGone_mono (fsLe_fold_platform valid pds _)
        (platform_core_a valid acc pd' t ht hsp hlen hnv)
    · have ht' : t ∈ (HarvestTags.processPlatformDir valid acc pd').1.dirs :=
        frame_processPlatformDir valid acc pd' t ht
          (hfr pd' (List.mem_cons_self pd' pds) he)
      have hmem' : pd ∈ pds := by
        rcases List.mem_cons.1 hmem with h | h
        · exact absurd h.symm he
        · exact h
      exact ih _ hmem' (fun x hx hne => hfr x (List.mem_cons_of_mem pd' hx) hne) ht'

lemma image_core_a (valid : List FsPath) (acc : FS × List FsPath) (idir pd t : FsPath)
    (hpd : pd ∈ acc.1.dirs) (ht : t ∈ acc.1.dirs)
    (hspi : spfx idir pd = true) (hleni : pd.length = idir.length + 1)
    (hsp : spfx pd t = true) (hlen : t.length = pd.length + 1)
    (hnv : valid.contains t = false) :
    subtreeGone t ((HarvestTags.processImageDir valid acc idir).1) := by
  have hpds : pd ∈ acc.1.childDirs idir := (mem_childDirs _ _ _).2 ⟨hpd, hspi, hleni⟩
  have hpdt : pfx pd t = true := ((spfx_iff pd t).1 hsp).1
  have hfr : ∀ pd' ∈ acc.1.childDirs idir, pd' ≠ pd → pfx pd' t = false := by
    intro pd' hpd' hne
    have hl' : pd'.length = idir.length + 1 := ((mem_childDirs _ _ _).1 hpd').2.2
    cases hpt : pfx pd' t
    · rfl
    · exact absurd (pfx_same_length_eq t pd' pd hpt hpdt (hl'.trans hleni.symm)) hne
  have hcore := fold_platform_a valid pd t hsp hlen hnv (acc.1.childDirs idir) acc hpds hfr ht
  simp only [HarvestTags.processImageDir]
  split
  · exact subtreeGone_mono (fsLe_rmdir _ _) hcore
  · exact hcore

lemma fold_image_a (valid : List FsPath) (idir pd t : FsPath)
    (hspi : spfx idir pd = true) (hleni : pd.length = idir.length + 1)
    (hsp : spfx pd t = true) (hlen : t.length = pd.length + 1)
    (hnv : valid.contains t = false) :
    ∀ (is : List FsPath) (acc : FS × List FsPath),
    idir ∈ is → (∀ i' ∈ is, i' ≠ idir → pfx i' t = false) →
    pd ∈ acc.1.dirs → t ∈ acc.1.dirs →
    subtreeGone t ((is.foldl (HarvestTags.processImageDir valid) acc).1) := by
  intro is
  induction is with
  | nil => intro acc h; simp at h
  | cons i' is ih =>
    intro acc hmem hfr hpd ht
    rw [List.foldl_cons]
    by_cases he : i' = idir
    · subst he
      exact subtreeGone_mono (fsLe_fold_image valid is _)
        (image_core_a valid acc i' pd t hpd ht hspi hleni hsp hlen hnv)
    · have hit : pfx i' t = false := hfr i' (List.mem_cons_self i' is) he
      have hip : pfx i' pd = false := by
        cases hp2 : pfx i' pd
        · rfl
        · exact absurd hit
            (by simp [pfx_trans i' pd t hp2 ((spfx_iff pd t).1 hsp).1])
      have ht' : t ∈ (HarvestTags.processImageDir valid acc i').1.dirs :=
        frame_processImageDir valid acc i' t ht hit
      have hpd' : pd ∈ (HarvestTags.processImageDir valid acc i').1.dirs :=
        frame_processImageDir valid acc i' pd hpd hip
      have hmem' : idir ∈ is := by
        rcases List.mem_cons.1 hmem with h | h
        · exact absurd h.symm he
        · exact h
      exact ih _ hmem' (fun x hx hne => hfr x (List.mem_cons_of_mem i' hx) hne) hpd' ht'

lemma nodup_childDirs (fs : FS) (d : FsPath) (h : Wf fs) : (fs.childDirs d).Nodup :=
  List.Nodup.sublist (List.filter_sublist fs.dirs) h.2.1

/-- Any directory strictly below `d` lies below one of `d`'s child
directories (well-formedness supplies the intermediate level). -/
lemma child_prefix_dir (g : FS) (hwf : Wf g) (d e : FsPath)
    (he : e ∈ g.dirs) (hsp : spfx d e = true) :
    ∃ c ∈ g.childDirs d, pfx c e = true := by
  obtain ⟨hpe, hne⟩ := (spfx_iff d e).1 hsp
  have hle := pfx_length_le d e hpe
  have hlt : d.length < e.length := by
    rcases Nat.lt_or_ge d.length e.length with h | h
    · exact h
    · exact absurd (pfx_same_length_eq e d e hpe (pfx_refl e) (le_antisymm hle h)) hne
  refine ⟨e.take (d.length + 1), ?_, pfx_take _ e⟩
  have hlc : (e.take (d.length + 1)).length = d.length + 1 := by
    rw [List.length_take]
    omega
  have hcd : e.take (d.length + 1) ∈ g.dirs := by
    by_cases hce : e.take (d.length + 1) = e
    · rw [hce]; exact he
    · have h2 := pfx_strict_dropLast _ e (pfx_take _ e) hce
      have h3 : e.take (d.length + 1) ≠ [] := by
        intro h4
        rw [h4] at hlc
        simp at hlc
      exact hwf.2.2.2.1 e he _ (mem_pathPrefixes_of_pfx _ e.dropLast h2 h3)
  have hpdc : pfx d (e.take (d.length + 1)) = true :=
    pfx_pfx_le e d _ hpe (pfx_take _ e) (by omega)
  refine (mem_childDirs _ _ _).2 ⟨hcd, (spfx_iff _ _).2 ⟨hpdc, ?_⟩, hlc⟩
  intro h4
  rw [← h4] at hlc
  omega

/-- Any file at least two levels below `d` lies below one of `d`'s child
directories. -/
lemma child_prefix_file (g : FS) (hwf : Wf g) (d : FsPath) (x : FsPath × String)
    (hx : x ∈ g.files) (hp : pfx d x.1 = true) (hlen : d.length + 2 ≤ x.1.length) :
    ∃ c ∈ g.childDirs d, pfx c x.1 = true := by
  refine ⟨x.1.take (d.length + 1), ?_, pfx_take _ x.1⟩
  have hlc : (x.1.take (d.length + 1)).length = d.length + 1 := by
    rw [List.length_take]
    omega
  have hce : x.1.take (d.length + 1) ≠ x.1 := by
    intro h4
    rw [h4] at hlc
    omega
  have hcd : x.1.take (d.length + 1) ∈ g.dirs := by
    have h2 := pfx_strict_dropLast _ x.1 (pfx_take _ x.1) hce
    have h3 : x.1.take (d.length + 1) ≠ [] := by
      intro h4
      rw [h4] at hlc
      simp at hlc
    exact hwf.2.2.1 x hx _ (mem_pathPrefixes_of_pfx _ x.1.dropLast h2 h3)
  have hpdc : pfx d (x.1.take (d.length + 1)) = true :=
    pfx_pfx_le x.1 d _ hp (pfx_take _ x.1) (by omega)
  refine (mem_childDirs _ _ _).2 ⟨hcd, (spfx_iff _ _).2 ⟨hpdc, ?_⟩, hlc⟩
  intro h4
  rw [← h4] at hlc
  omega

/-- With no valid pin below it and all files at tag depth, a platform
directory is wiped completely: all tag children are rmtree'd and the
directory itself is rmdir'd. -/
lemma platform_clear (valid : List FsPath) (acc : FS × List FsPath) (pd : FsPath)
    (hwf : Wf acc.1) (hpd : pd ∈ acc.1.dirs)
    (hv : ∀ t ∈ acc.1.childDirs pd, valid.contains t = false)
    (hfile : ∀ x ∈ acc.1.files, pfx pd x.1 = true → pd.length + 2 ≤ x.1.length) :
    subtreeGone pd ((HarvestTags.processPlatformDir valid acc pd).1) := by
  simp only [HarvestTags.processPlatformDir]
  set ts := acc.1.childDirs pd with hts
  set r := ts.foldl (HarvestTags.processTagDir valid) acc with hr
  have hclear : ∀ c ∈ ts, subtreeGone c r.1 :=
    fun c hcm => fold_tag_gone valid ts acc c hcm (hv c hcm)
  have claimD : ∀ e ∈ r.1.dirs, spfx pd e = false := by
    intro e her
    cases hspe : spfx pd e
    · rfl
    · exfalso
      have hea : e ∈ acc.1.dirs := (fsLe_fold_tag valid ts acc).1 e her
      obtain ⟨c, hcm, hpce⟩ := child_prefix_dir acc.1 hwf pd e hea hspe
      exact absurd hpce (by simp [(hclear c hcm).1 e her])
  have claimF : ∀ x ∈ r.1.files, pfx pd x.1 = false := by
    intro x hxr
    cases hpx : pfx pd x.1
    · rfl
    · exfalso
      have hxa : x ∈ acc.1.files := (fsLe_fold_tag valid ts acc).2 x hxr
      obtain ⟨c, hcm, hpce⟩ :=
        child_prefix_file acc.1 hwf pd x hxa hpx (hfile x hxa hpx)
      exact absurd hpce (by simp [(hclear c hcm).2 x hxr])
  have hpdr : pd ∈ r.1.dirs := by
    refine frame_fold_tag valid ts acc pd hpd ?_
    intro t htm
    cases hq : pfx t pd
    · rfl
    · exfalso
      have hl := pfx_length_le t pd hq
      have hl2 := ((mem_childDirs _ _ _).1 htm).2.2
      omega
  have hempty : r.1.dirEmptyB pd = true := by
    rw [dirEmptyB_true_iff]
    refine ⟨?_, claimD⟩
    intro f hf
    cases hs : spfx pd f.1
    · rfl
    · exact absurd ((spfx_iff _ _).1 hs).1 (by simp [claimF f hf])
  have hcond : (r.1.dirs.contains pd && r.1.dirEmptyB pd) = true := by
    rw [Bool.and_eq_true]
    exact ⟨(contains_iff _ _).2 hpdr, hempty⟩
  rw [if_pos hcond]
  constructor
  · intro e he
    have hm := List.mem_filter.1 he
    cases hp : pfx pd e
    · rfl
    · exfalso
      have hne : e ≠ pd := by simpa using hm.2
      exact absurd ((spfx_iff pd e).2 ⟨hp, fun h4 => hne h4.symm⟩)
        (by simp [claimD e hm.1])
  · intro x hx
    exact claimF x hx

lemma fold_platform_clear (valid : List FsPath) (idir : FsPath)
    (hv : ∀ v ∈ valid, pfx idir v = false) :
    ∀ (pds : List FsPath) (acc : FS × List FsPath),
    Wf acc.1 → pds.Nodup →
    (∀ pd ∈ pds, pd ∈ acc.1.dirs ∧ spfx idir pd = true ∧ pd.length = idir.length + 1) →
    (∀ x ∈ acc.1.files, pfx idir x.1 = true → idir.length + 3 ≤ x.1.length) →
    ∀ pd ∈ pds,
    subtreeGone pd ((pds.foldl (HarvestTags.processPlatformDir valid) acc).1) := by
  intro pds
  induction pds with
  | nil => intro acc _ _ _ _ pd h; simp at h
  | cons pd' pds ih =>
    intro acc hwf hnd hshape hfile pd hpd
    rw [List.foldl_cons]
    have hsh' := hshape pd' (List.mem_cons_self pd' pds)
    have hclear' : subtreeGone pd' (HarvestTags.processPlatformDir valid acc pd').1 := by
      refine platform_clear valid acc pd' hwf hsh'.1 ?_ ?_
      · intro t htm
        have hsp := ((mem_childDirs _ _ _).1 htm).2.1
        have hpt : pfx idir t = true :=
          pfx_trans idir pd' t ((spfx_iff _ _).1 hsh'.2.1).1 ((spfx_iff _ _).1 hsp).1
        cases hvt : valid.contains t
        · rfl
        · exact absurd hpt (by simp [hv t ((contains_iff _ _).1 hvt)])
      · intro x hx hpx
        have h2 := hfile x hx
          (pfx_trans idir pd' x.1 ((spfx_iff _ _).1 hsh'.2.1).1 hpx)
        have h3 := hsh'.2.2
        omega
    rcases List.mem_cons.1 hpd with h | h
    · rw [h]
      exact subtreeGone_mono
        (fsLe_fold_platform valid pds (HarvestTags.processPlatformDir valid acc pd')) hclear'
    · have hwf' : Wf (HarvestTags.processPlatformDir valid acc pd').1 :=
        wf_processPlatformDir valid acc pd' hwf
      have hfile' : ∀ x ∈ (HarvestTags.processPlatformDir valid acc pd').1.files,
          pfx idir x.1 = true → idir.length + 3 ≤ x.1.length :=
        fun x hx => hfile x ((fsLe_processPlatformDir valid acc pd').2 x hx)
      have hshape' : ∀ q ∈ pds, q ∈ (HarvestTags.processPlatformDir valid acc pd').1.dirs ∧
          spfx idir q = true ∧ q.length = idir.length + 1 := by
        intro q hq
        obtain ⟨hq1, hq2, hq3⟩ := hshape q (List.mem_cons_of_mem pd' hq)
        refine ⟨?_, hq2, hq3⟩
        have hqne : q ≠ pd' := by
          intro hc
          rw [hc] at hq
          exact (List.nodup_cons.1 hnd).1 hq
        have hfq : pfx pd' q = false := by
          cases hc : pfx pd' q
          · rfl
          · exact absurd
              (pfx_same_length_eq q pd' q hc (pfx_refl q) (hsh'.2.2.trans hq3.symm))
              (fun h4 => hqne h4.symm)
        exact frame_processPlatformDir valid acc pd' q hq1 hfq
      exact ih _ hwf' (List.nodup_cons.1 hnd).2 hshape' hfile' pd h

/-- With no valid pin below it and all files at tag depth, an image
directory is removed transitively. -/
lemma image_clear (valid : List FsPath) (acc : FS × List FsPath) (idir : FsPath)
    (hwf : Wf acc.1) (hidir : idir ∈ acc.1.dirs)
    (hv : ∀ v ∈ valid, pfx idir v = false)
    (hfile : ∀ x ∈ acc.1.files, pfx idir x.1 = true → idir.length + 3 ≤ x.1.length) :
    subtreeGone idir ((HarvestTags.processImageDir valid acc idir).1) := by
  simp only [HarvestTags.processImageDir]
  set pds := acc.1.childDirs idir with hpds
  set r := pds.foldl (HarvestTags.processPlatformDir valid) acc with hr
  have hclear : ∀ pd ∈ pds, subtreeGone pd r.1 :=
    fold_platform_clear valid idir hv pds acc hwf (nodup_childDirs acc.1 idir hwf)
      (fun pd hpd => (mem_childDirs _ _ _).1 hpd) hfile
  have claimD : ∀ e ∈ r.1.dirs, spfx idir e = false := by
    intro e her
    cases hspe : spfx idir e
    · rfl
    · exfalso
      have hea : e ∈ acc.1.dirs := (fsLe_fold_platform valid pds acc).1 e her
      obtain ⟨c, hcm, hpce⟩ := child_prefix_dir acc.1 hwf idir e hea hspe
      exact absurd hpce (by simp [(hclear c hcm).1 e her])
  have claimF : ∀ x ∈ r.1.files, pfx idir x.1 = false := by
    intro x hxr
    cases hpx : pfx idir x.1
    · rfl
    · exfalso
      have hxa : x ∈ acc.1.files := (fsLe_fold_platform valid pds acc).2 x hxr
      obtain ⟨c, hcm, hpce⟩ :=
        child_prefix_file acc.1 hwf idir x hxa hpx (by have := hfile x hxa hpx; omega)
      exact absurd hpce (by simp [(hclear c hcm).2 x hxr])
  have hidr : idir ∈ r.1.dirs := by
    refine frame_fold_platform valid pds acc idir hidir ?_
    intro pd hpm
    cases hq : pfx pd idir
    · rfl
    · exfalso
      have hl := pfx_length_le pd idir hq
      have hl2 := ((mem_childDirs _ _ _).1 hpm).2.2
      omega
  have hempty : r.1.dirEmptyB idir = true := by
    rw [dirEmptyB_true_iff]
    refine ⟨?_, claimD⟩
    intro f hf
    cases hs : spfx idir f.1
    · rfl
    · exact absurd ((spfx_iff _ _).1 hs).1 (by simp [claimF f hf])
  have hcond : (r.1.dirs.contains idir && r.1.dirEmptyB idir) = true := by
    rw [Bool.and_eq_true]
    exact ⟨(contains_iff _ _).2 hidr, hempty⟩
  rw [if_pos hcond]
  constructor
  · intro e he
    have hm := List.mem_filter.1 he
    cases hp : pfx idir e
    · rfl
    · exfalso
      have hne : e ≠ idir := by simpa using hm.2
      exact absurd ((spfx_iff idir e).2 ⟨hp, fun h4 => hne h4.symm⟩)
        (by simp [claimD e hm.1])
  · intro x hx
    exact claimF x hx

lemma fold_image_clear (valid : List FsPath) (idir : FsPath)
    (hv : ∀ v ∈ valid, pfx idir v = false) :
    ∀ (is : List FsPath) (acc : FS × List FsPath),
    Wf acc.1 → idir ∈ acc.1.dirs →
    (∀ x ∈ acc.1.files, pfx idir x.1 = true → idir.length + 3 ≤ x.1.length) →
    idir ∈ is → (∀ i' ∈ is, i' ≠ idir → pfx i' idir = false) →
    subtreeGone idir ((is.foldl (HarvestTags.processImageDir valid) acc).1) := by
  intro is
  induction is with
  | nil => intro acc _ _ _ h; simp at h
  | cons i' is ih =>
    intro acc hwf hidir hfile hmem hfr
    rw [List.foldl_cons]
    by_cases he : i' = idir
    · subst he
      exact subtreeGone_mono (fsLe_fold_image valid is _)
        (image_clear valid acc i' hwf hidir hv hfile)
    · have hfri : pfx i' idir = false := hfr i' (List.mem_cons_self i' is) he
      have hmem' : idir ∈ is := by
        rcases List.mem_cons.1 hmem with h | h
        · exact absurd h.symm he
        · exact h
      exact ih _ (wf_processImageDir valid acc i' hwf)
        (frame_processImageDir valid acc i' idir hidir hfri)
        (fun x hx => hfile x ((fsLe_processImageDir valid acc i').2 x hx))
        hmem' (fun x hx hne => hfr x (List.mem_cons_of_mem i' hx) hne)

/-- C3 (corrected): `generate-pins` never deletes; the deletion lives in
harvest-tags.py `remove_orphaned_pins`.  For it, on a well-formed tree:
(1) every tag directory `pins/i/pl/tg` not among the valid pins is removed
together with everything below it; (2) an image directory with no valid pin
below it, whose files all sit at tag depth or deeper, is removed
transitively with everything below it. -/
theorem c3_amended (valid : List FsPath) (fs : FS) (hwf : Wf fs)
    (out : FS × List FsPath)
    (hout : out = HarvestTags.remove_orphaned_pins valid fs) :
    (∀ i pl tg, pinsRoot ++ [i, pl, tg] ∈ fs.dirs →
      valid.contains (pinsRoot ++ [i, pl, tg]) = false →
      (∀ e ∈ out.1.dirs, pfx (pinsRoot ++ [i, pl, tg]) e = false) ∧
      (∀ p, pfx (pinsRoot ++ [i, pl, tg]) p = true → out.1.fileContent p = none)) ∧
    (∀ i, pinsRoot ++ [i] ∈ fs.dirs →
      (∀ v ∈ valid, pfx (pinsRoot ++ [i]) v = false) →
      (∀ x ∈ fs.files, pfx (pinsRoot ++ [i]) x.1 = true →
        pinsRoot.length + 4 ≤ x.1.length) →
      (∀ e ∈ out.1.dirs, pfx (pinsRoot ++ [i]) e = false) ∧
      (∀ p, pfx (pinsRoot ++ [i]) p = true → out.1.fileContent p = none)) := by
  subst hout
  constructor
  · intro i pl tg ht hnv
    have hteq : pinsRoot ++ [i, pl, tg] = (pinsRoot ++ [i, pl]) ++ [tg] := by simp
    have hpdeq : pinsRoot ++ [i, pl] = (pinsRoot ++ [i]) ++ [pl] := by simp
    have hdrop : (pinsRoot ++ [i, pl, tg]).dropLast = pinsRoot ++ [i, pl] := by
      rw [hteq]
      exact List.dropLast_concat
    have hanc : ∀ c : FsPath, pfx c (pinsRoot ++ [i, pl]) = true → c ≠ [] →
        c ∈ fs.dirs := by
      intro c h1 h2
      refine hwf.2.2.2.1 _ ht _ ?_
      rw [hdrop]
      exact mem_pathPrefixes_of_pfx c _ h1 h2
    have hpd := hanc (pinsRoot ++ [i, pl]) (pfx_refl _) (by simp [pinsRoot])
    have hidir := hanc (pinsRoot ++ [i])
      (by rw [hpdeq]; exact pfx_append_self _ _) (by simp [pinsRoot])
    have hpins := hanc pinsRoot (pfx_append_self _ _) (by simp [pinsRoot])
    have hL1 : (pinsRoot ++ [i]).length = pinsRoot.length + 1 := by simp
    have hL2 : (pinsRoot ++ [i, pl]).length = pinsRoot.length + 2 := by simp
    have hL3 : (pinsRoot ++ [i, pl, tg]).length = pinsRoot.length + 3 := by simp
    have hspi : spfx (pinsRoot ++ [i]) (pinsRoot ++ [i, pl]) = true := by
      rw [spfx_iff]
      refine ⟨by rw [hpdeq]; exact pfx_append_self _ _, ?_⟩
      intro h4
      have h5 := congrArg List.length h4
      simp at h5
    have hsp : spfx (pinsRoot ++ [i, pl]) (pinsRoot ++ [i, pl, tg]) = true := by
      rw [spfx_iff]
      refine ⟨by rw [hteq]; exact pfx_append_self _ _, ?_⟩
      intro h4
      have h5 := congrArg List.length h4
      simp at h5
    have hspri : spfx pinsRoot (pinsRoot ++ [i]) = true := by
      rw [spfx_iff]
      refine ⟨pfx_append_self _ _, ?_⟩
      intro h4
      have h5 := congrArg List.length h4
      simp at h5
    have hmemi : pinsRoot ++ [i] ∈ fs.childDirs pinsRoot :=
      (mem_childDirs _ _ _).2 ⟨hidir, hspri, hL1⟩
    have hfr : ∀ i' ∈ fs.childDirs pinsRoot, i' ≠ pinsRoot ++ [i] →
        pfx i' (pinsRoot ++ [i, pl, tg]) = false := by
      intro i' hi' hne
      cases hq : pfx i' (pinsRoot ++ [i, pl, tg])
      · rfl
      · exfalso
        have hl' := ((mem_childDirs _ _ _).1 hi').2.2
        have hpt : pfx (pinsRoot ++ [i]) (pinsRoot ++ [i, pl, tg]) = true := by
          have h6 : pinsRoot ++ [i, pl, tg] = (pinsRoot ++ [i]) ++ [pl, tg] := by simp
          rw [h6]
          exact pfx_append_self _ _
        exact hne (pfx_same_length_eq _ i' _ hq hpt (hl'.trans hL1.symm))
    have hro : HarvestTags.remove_orphaned_pins valid fs =
        (fs.childDirs pinsRoot).foldl (HarvestTags.processImageDir valid) (fs, []) := by
      unfold HarvestTags.remove_orphaned_pins
      rw [if_pos ((contains_iff _ _).2 hpins)]
    have hgone := fold_image_a valid (pinsRoot ++ [i]) (pinsRoot ++ [i, pl])
      (pinsRoot ++ [i, pl, tg]) hspi (by rw [hL2, hL1]) hsp (by rw [hL3, hL2]) hnv
      (fs.childDirs pinsRoot) (fs, []) hmemi hfr hpd ht
    rw [hro]
    refine ⟨hgone.1, ?_⟩
    intro p hp
    unfold FS.fileContent
    refine lookupFile_none_of _ p ?_
    intro x hx h4
    have h5 := hgone.2 x hx
    rw [h4] at h5
    exact absurd hp (by simp [h5])
  · intro i hidir hv hfile
    have hpins : pinsRoot ∈ fs.dirs := by
      refine hwf.2.2.2.1 _ hidir _ ?_
      have hdrop : (pinsRoot ++ [i]).dropLast = pinsRoot := List.dropLast_concat
      rw [hdrop]
      exact self_mem_pathPrefixes _ (by simp [pinsRoot])
    have hL1 : (pinsRoot ++ [i]).length = pinsRoot.length + 1 := by simp
    have hspri : spfx pinsRoot (pinsRoot ++ [i]) = true := by
      rw [spfx_iff]
      refine ⟨pfx_append_self _ _, ?_⟩
      intro h4
      have h5 := congrArg List.length h4
      simp at h5
    have hmemi : pinsRoot ++ [i] ∈ fs.childDirs pinsRoot :=
      (mem_childDirs _ _ _).2 ⟨hidir, hspri, hL1⟩
    have hfr : ∀ i' ∈ fs.childDirs pinsRoot, i' ≠ pinsRoot ++ [i] →
        pfx i' (pinsRoot ++ [i]) = false := by
      intro i' hi' hne
      cases hq : pfx i' (pinsRoot ++ [i])
      · rfl
      · exfalso
        have hl' := ((mem_childDirs _ _ _).1 hi').2.2
        exact hne (pfx_same_length_eq _ i' _ hq (pfx_refl _) (hl'.trans hL1.symm))
    have hro : HarvestTags.remove_orphaned_pins valid fs =
        (fs.childDirs pinsRoot).foldl (HarvestTags.processImageDir valid) (fs, []) := by
      unfold HarvestTags.remove_orphaned_pins
      rw [if_pos ((contains_iff _ _).2 hpins)]
    have hfile' : ∀ x ∈ (fs, ([] : List FsPath)).1.files,
        pfx (pinsRoot ++ [i]) x.1 = true →
        (pinsRoot ++ [i]).length + 3 ≤ x.1.length := by
      intro x hx hp
      have h6 := hfile x hx hp
      rw [hL1]
      omega
    have hgone := fold_image_clear valid (pinsRoot ++ [i]) hv (fs.childDirs pinsRoot)
      (fs, []) hwf hidir hfile' hmemi hfr
    rw [hro]
    refine ⟨hgone.1, ?_⟩
    intro p hp
    unfold FS.fileContent
    refine lookupFile_none_of _ p ?_
    intro x hx h4
    have h5 := hgone.2 x hx
    rw [h4] at h5
    exact absurd hp (by simp [h5])

def catC3 : Option (List ImageSpec) := some [⟨"busybox", ["linux/amd64"], ["1"], [], []⟩]

def orphanPinC3 : FsPath :=
  ["nix", "_dockerfiles", "pins", "oldimg", "linux_amd64", "2", "Dockerfile"]

def fsC3 : FS :=
  ⟨[(["images.json"], "[]"),
    (orphanPinC3, "FROM --platform=linux/amd64 oldimg:2\n")],
   [["nix"], ["nix", "_dockerfiles"], ["nix", "_dockerfiles", "pins"],
    ["nix", "_dockerfiles", "pins", "oldimg"],
    ["nix", "_dockerfiles", "pins", "oldimg", "linux_amd64"],
    ["nix", "_dockerfiles", "pins", "oldimg", "linux_amd64", "2"]]⟩

/-- C3 counterexample: `generate-pins` (manage-images.py) never deletes:
a pin referenced neither by the catalog nor by any version Dockerfile
survives the run with its content intact. -/
theorem c3_counterexample :
    HarvestTags.get_valid_pins_from_versions fsC3 = [] ∧
    orphanPinC3 ∉ GenVersionDockerfiles.get_expected_pin_paths
      [⟨"busybox", ["linux/amd64"], ["1"], [], []⟩] ∧
    (ManageImages.generate_pins catC3 fsC3).fs.fileContent orphanPinC3 =
      some "FROM --platform=linux/amd64 oldimg:2\n" := by decide

theorem c3_amended_witness :
    Wf fsC3 ∧
    (HarvestTags.remove_orphaned_pins (HarvestTags.get_valid_pins_from_versions fsC3)
      fsC3).1.fileContent orphanPinC3 = none :=
  ⟨by decide,
   ((c3_amended (HarvestTags.get_valid_pins_from_versions fsC3) fsC3 (by decide)
      _ rfl).2 "oldimg" (by decide) (by decide) (by decide)).2 orphanPinC3 (by decide)⟩
